import Mathlib

set_option maxHeartbeats 1000000

namespace NuPlot

/-!  Shallow embedding of the rendering core of `nu_plugin_plot`:
the Braille canvas (`src/color_plot/drawille.rs`), the charting layer
(`src/color_plot/textplots/mod.rs`) and the plugin-level list checking
(`src/lib.rs`).  `f32` values are modelled as exact rationals extended with
the IEEE special values `inf`, `-inf` and `NaN`; finite arithmetic is exact
(rounding error of `f32` is not modelled) and only the positive zero is
represented. -/

/-- Model of an `f32` value: an exact rational, an infinity, or NaN. -/
inductive FQ where
  | nan
  | pinf
  | ninf
  | fin (q : ℚ)
  deriving DecidableEq

namespace FQ

/-- IEEE addition on the model. -/
def add : FQ → FQ → FQ
  | nan, _ => nan
  | _, nan => nan
  | pinf, ninf => nan
  | ninf, pinf => nan
  | pinf, _ => pinf
  | _, pinf => pinf
  | ninf, _ => ninf
  | _, ninf => ninf
  | fin a, fin b => fin (a + b)

/-- IEEE negation on the model. -/
def neg : FQ → FQ
  | nan => nan
  | pinf => ninf
  | ninf => pinf
  | fin a => fin (-a)

/-- IEEE subtraction on the model. -/
def sub (a b : FQ) : FQ := a.add b.neg

/-- IEEE multiplication on the model. -/
def mul : FQ → FQ → FQ
  | nan, _ => nan
  | _, nan => nan
  | pinf, pinf => pinf
  | pinf, ninf => ninf
  | ninf, pinf => ninf
  | ninf, ninf => pinf
  | pinf, fin b => if b = 0 then nan else if 0 < b then pinf else ninf
  | fin a, pinf => if a = 0 then nan else if 0 < a then pinf else ninf
  | ninf, fin b => if b = 0 then nan else if 0 < b then ninf else pinf
  | fin a, ninf => if a = 0 then nan else if 0 < a then ninf else pinf
  | fin a, fin b => fin (a * b)

/-- IEEE division on the model (only the positive zero is represented, so
division of a nonzero finite value by zero yields the infinity whose sign is
the dividend's). -/
def div : FQ → FQ → FQ
  | nan, _ => nan
  | _, nan => nan
  | pinf, pinf => nan
  | pinf, ninf => nan
  | ninf, pinf => nan
  | ninf, ninf => nan
  | pinf, fin b => if 0 ≤ b then pinf else ninf
  | ninf, fin b => if 0 ≤ b then ninf else pinf
  | fin _, pinf => fin 0
  | fin _, ninf => fin 0
  | fin a, fin b =>
    if b = 0 then (if a = 0 then nan else if 0 < a then pinf else ninf)
    else fin (a / b)

/-- Rounding of a rational to the nearest integer, halves away from zero:
the semantics of Rust's `f32::round`. -/
def roundQ (q : ℚ) : ℤ :=
  if 0 ≤ q then ⌊q + 1 / 2⌋ else -⌊-q + 1 / 2⌋

/-- `f32::round` on the model. -/
def round : FQ → FQ
  | fin q => fin ((roundQ q : ℤ) : ℚ)
  | x => x

/-- Rust's saturating cast `as u32` on an `f32` value: NaN and negative
values go to `0`, values above `u32::MAX` to `u32::MAX`, and finite values
are truncated toward zero. -/
def castU32 : FQ → ℕ
  | nan => 0
  | ninf => 0
  | pinf => 4294967295
  | fin q => if q < 0 then 0 else Min.min 4294967295 (⌊q⌋.toNat)

/-- The `f32` comparison `a <= b` (false whenever an operand is NaN). -/
def ble : FQ → FQ → Bool
  | nan, _ => false
  | _, nan => false
  | ninf, _ => true
  | pinf, pinf => true
  | pinf, _ => false
  | fin _, pinf => true
  | fin _, ninf => false
  | fin a, fin b => decide (a ≤ b)

/-- `f32::min`: if one argument is NaN the other is returned. -/
def fmin : FQ → FQ → FQ
  | nan, b => b
  | a, nan => a
  | ninf, _ => ninf
  | _, ninf => ninf
  | pinf, b => b
  | a, pinf => a
  | fin a, fin b => fin (Min.min a b)

/-- `f32::max`: if one argument is NaN the other is returned. -/
def fmax : FQ → FQ → FQ
  | nan, b => b
  | a, nan => a
  | pinf, _ => pinf
  | _, pinf => pinf
  | ninf, b => b
  | a, ninf => a
  | fin a, fin b => fin (Max.max a b)

/-- `f32::is_normal` on the model: the model has no subnormals, so a value
is normal exactly when it is finite and nonzero. -/
def isNormal : FQ → Bool
  | fin q => decide (q ≠ 0)
  | _ => false

end FQ

/-- Modelled from the spec: the file `textplots/scale.rs` of this repository
is not under `src/`; spec §4.2 defines `linear(v) = range.lo + (v -
domain.lo) * (range.hi - range.lo) / (domain.hi - domain.lo)` and
`inv_linear` as the algebraic inverse obtained by swapping the roles of
domain and range. -/
structure Scale where
  dlo : FQ
  dhi : FQ
  rlo : FQ
  rhi : FQ

/-- `Scale::linear` (modelled from the spec, see `Scale`). -/
def Scale.linear (s : Scale) (v : FQ) : FQ :=
  s.rlo.add (((v.sub s.dlo).mul (s.rhi.sub s.rlo)).div (s.dhi.sub s.dlo))

/-- `Scale::inv_linear` (modelled from the spec, see `Scale`). -/
def Scale.invLinear (s : Scale) (v : FQ) : FQ :=
  s.dlo.add (((v.sub s.rlo).mul (s.dhi.sub s.dlo)).div (s.rhi.sub s.rlo))

/-- The `PixelColor` values the plugin uses (`owo_colors::AnsiColors`):
the default `White` plus the five palette colors of `src/lib.rs`. -/
inductive PixelColor where
  | white
  | brightWhite
  | brightRed
  | brightBlue
  | brightYellow
  | cyan
  deriving DecidableEq

/-- One cell of the canvas: the tuple `(u8, char, bool, PixelColor)` of
`drawille.rs` (dot mask, override character, colored flag, color). -/
structure Cell where
  mask : ℕ
  ch : Char
  colored : Bool
  color : PixelColor
  deriving DecidableEq

/-- The value `or_insert`ed for an untouched cell: `(0, ' ', false, White)`. -/
def defaultCell : Cell := ⟨0, ' ', false, .white⟩

/-- `PIXEL_MAP`: the fixed 4-row × 2-column Braille dot-bit table. -/
def pixelMap : ℕ → ℕ → ℕ
  | 0, 0 => 0x01
  | 0, _ => 0x08
  | 1, 0 => 0x02
  | 1, _ => 0x10
  | 2, 0 => 0x04
  | 2, _ => 0x20
  | _, 0 => 0x40
  | _, _ => 0x80

/-- The cell key of a dot: `((x / 2) as u16, (y / 4) as u16)`. -/
def cellKey (x y : ℕ) : ℕ × ℕ := ((x / 2) % 65536, (y / 4) % 65536)

/-- The dot bit of a dot: `PIXEL_MAP[y % 4][x % 2]`. -/
def dotBit (x y : ℕ) : ℕ := pixelMap (y % 4) (x % 2)

/-- The sparse cell map, as an association list with at most one entry per
key; a hash map in the source, whose iteration order is only ever used
through order-independent folds. -/
abbrev CellMap := List ((ℕ × ℕ) × Cell)

/-- `self.chars.entry(k).or_insert(default)` followed by a mutation `g` of
the entry's value. -/
def entryMod (k : ℕ × ℕ) (g : Cell → Cell) : CellMap → CellMap
  | [] => [(k, g defaultCell)]
  | e :: rest => if e.1 = k then (k, g e.2) :: rest else e :: entryMod k g rest

/-- `self.chars.get(&k)`. -/
def lookupCell : CellMap → ℕ × ℕ → Option Cell
  | [], _ => none
  | e :: rest, k => if e.1 = k then some e.2 else lookupCell rest k

/-- The canvas of `drawille.rs`: sparse cell map plus nominal size in cells. -/
structure Canvas where
  chars : CellMap
  width : ℕ
  height : ℕ
  deriving DecidableEq

/-- `Canvas::new`: nominal size is `(width / 2, height / 4)` cells (stored
as `u16`). -/
def Canvas.new (width height : ℕ) : Canvas :=
  ⟨[], width / 2 % 65536, height / 4 % 65536⟩

/-- `Canvas::set`: OR the dot bit into the mask and reset character, colored
flag and color. -/
def Canvas.set (cv : Canvas) (x y : ℕ) : Canvas :=
  { cv with chars :=
      entryMod (cellKey x y) (fun a => ⟨a.mask ||| dotBit x y, ' ', false, .white⟩) cv.chars }

/-- `Canvas::set_colored`: OR the dot bit into the mask, set the colored
flag and store the color. -/
def Canvas.setColored (cv : Canvas) (x y : ℕ) (c : PixelColor) : Canvas :=
  { cv with chars :=
      entryMod (cellKey x y) (fun a => ⟨a.mask ||| dotBit x y, ' ', true, c⟩) cv.chars }

/-- `Canvas::set_char`: zero the mask, store the character, clear the color. -/
def Canvas.setChar (cv : Canvas) (x y : ℕ) (c : Char) : Canvas :=
  { cv with chars :=
      entryMod (cellKey x y) (fun _ => ⟨0, c, false, .white⟩) cv.chars }

/-- `Canvas::unset`: clear only the dot bit (`a.0 &= !bit`). -/
def Canvas.unset (cv : Canvas) (x y : ℕ) : Canvas :=
  let g : Cell → Cell := fun a => ⟨a.mask &&& (255 ^^^ dotBit x y), a.ch, a.colored, a.color⟩
  { cv with chars := entryMod (cellKey x y) g cv.chars }

/-- `Canvas::toggle`: XOR the dot bit. -/
def Canvas.toggle (cv : Canvas) (x y : ℕ) : Canvas :=
  { cv with chars :=
      entryMod (cellKey x y) (fun a => ⟨a.mask ^^^ dotBit x y, a.ch, a.colored, a.color⟩) cv.chars }

/-- `Canvas::get`: test the dot bit against the stored mask, false for
untouched cells. -/
def Canvas.get (cv : Canvas) (x y : ℕ) : Bool :=
  match lookupCell cv.chars (cellKey x y) with
  | none => false
  | some a => decide ((a.mask &&& dotBit x y) ≠ 0)

/-- `Canvas::text`, inner loop: `w = 2 * i; if w > max_width return;
set_char(x + w, y, c)`. -/
def Canvas.textGo : Canvas → ℕ → ℕ → ℕ → ℕ → List Char → Canvas
  | cv, _, _, _, _, [] => cv
  | cv, x, y, maxW, i, c :: rest =>
    if maxW < 2 * i then cv
    else Canvas.textGo (cv.setChar (x + 2 * i) y c) x y maxW (i + 1) rest

/-- `Canvas::text`. -/
def Canvas.text (cv : Canvas) (x y maxW : ℕ) (s : List Char) : Canvas :=
  Canvas.textGo cv x y maxW 0 s

/-- `maxrow` of `Canvas::rows`: the nominal width joined with every touched
key's first component. -/
def Canvas.maxrow (cv : Canvas) : ℕ :=
  cv.chars.foldl (fun m e => Max.max m e.1.1) cv.width

/-- `maxcol` of `Canvas::rows`. -/
def Canvas.maxcol (cv : Canvas) : ℕ :=
  cv.chars.foldl (fun m e => Max.max m e.1.2) cv.height

/-- The two-digit ANSI foreground code of a color. -/
def colorCode : PixelColor → List Char
  | .white => ['3', '7']
  | .brightWhite => ['9', '7']
  | .brightRed => ['9', '1']
  | .brightBlue => ['9', '4']
  | .brightYellow => ['9', '3']
  | .cyan => ['3', '6']

/-- Modelled from the spec: the ANSI colour wrapping of a colored cell is
produced by the external `owo_colors` crate (spec §6: colored cells are
wrapped in a foreground-color escape sequence). -/
def colorWrap (c : PixelColor) (s : List Char) : List Char :=
  '\x1b' :: '[' :: (colorCode c ++ 'm' :: s ++ ['\x1b', '[', '0', 'm'])

/-- Rendering of one cell in `Canvas::rows`: override character for an empty
mask, bare Braille codepoint `0x2800 + mask` otherwise, color-wrapped when
the colored flag is set. -/
def renderCell (a : Cell) : List Char :=
  if a.mask = 0 then [a.ch]
  else if a.colored then colorWrap a.color [Char.ofNat (0x2800 + a.mask)]
  else [Char.ofNat (0x2800 + a.mask)]

/-- `Canvas::rows`. -/
def Canvas.rowsChars (cv : Canvas) : List (List Char) :=
  (List.range (cv.maxcol + 1)).map (fun y =>
    (List.range (cv.maxrow + 1)).foldl
      (fun acc x => acc ++ renderCell ((lookupCell cv.chars (x, y)).getD defaultCell)) [])

/-- `Vec::join("\n")` on lists of characters. -/
def joinNl : List (List Char) → List Char
  | [] => []
  | [r] => r
  | r :: rs => r ++ '\n' :: joinNl rs

/-- `Canvas::frame`. -/
def Canvas.frameChars (cv : Canvas) : List Char := joinNl cv.rowsChars

/-- One step coordinate of `Canvas::line`: `c1 + ((i * diff) / r) * dir`
with `u32` multiplication (wrapping) and truncating division, the final
value reduced mod `2^32` as by the `as u32` cast. -/
def lineStepCoord (c1 c2 diff r i : ℕ) : ℕ :=
  if diff = 0 then c1
  else
    let d : ℕ := (i * diff % 4294967296) / r
    if c1 ≤ c2 then (((c1 : ℤ) + (d : ℤ)) % 4294967296).toNat
    else (((c1 : ℤ) - (d : ℤ)) % 4294967296).toNat

/-- The sequence of dots set by `Canvas::line(x1, y1, x2, y2)`. -/
def lineDots (x1 y1 x2 y2 : ℕ) : List (ℕ × ℕ) :=
  let xdiff := Max.max x1 x2 - Min.min x1 x2
  let ydiff := Max.max y1 y2 - Min.min y1 y2
  let r := Max.max xdiff ydiff
  (List.range (r + 1)).map
    (fun i => (lineStepCoord x1 x2 xdiff r i, lineStepCoord y1 y2 ydiff r i))

/-- `Canvas::line`. -/
def Canvas.line (cv : Canvas) (x1 y1 x2 y2 : ℕ) : Canvas :=
  (lineDots x1 y1 x2 y2).foldl (fun c p => c.set p.1 p.2) cv

/-- `Canvas::line_colored`. -/
def Canvas.lineColored (cv : Canvas) (x1 y1 x2 y2 : ℕ) (color : PixelColor) : Canvas :=
  (lineDots x1 y1 x2 y2).foldl (fun c p => c.setColored p.1 p.2 color) cv

/-- A primitive dot operation: the two dot-writing calls issued by the
render pass (`Chart::figures` only ever calls `set` and `set_colored`,
the latter through `line` / `line_colored`). -/
inductive POp where
  | set (p : ℕ × ℕ)
  | setColored (p : ℕ × ℕ) (c : PixelColor)

/-- Apply a primitive dot operation to a canvas. -/
def POp.apply (o : POp) (cv : Canvas) : Canvas :=
  match o with
  | .set p => cv.set p.1 p.2
  | .setColored p c => cv.setColored p.1 p.2 c

/-- Apply a list of primitive dot operations in order. -/
def applyOps (L : List POp) (cv : Canvas) : Canvas :=
  L.foldl (fun c o => o.apply c) cv

/-- The dot operations of one `line` / `line_colored` call. -/
def lineOps (co : Option PixelColor) (x1 y1 x2 y2 : ℕ) : List POp :=
  (lineDots x1 y1 x2 y2).map
    (fun p => match co with | none => POp.set p | some c => POp.setColored p c)

/-- `applyOps` of `lineOps none` is exactly `Canvas::line`. -/
theorem lineOps_apply_none (cv : Canvas) (x1 y1 x2 y2 : ℕ) :
    applyOps (lineOps none x1 y1 x2 y2) cv = cv.line x1 y1 x2 y2 := by
  simp [applyOps, lineOps, Canvas.line, List.foldl_map, POp.apply]

/-- `applyOps` of `lineOps (some c)` is exactly `Canvas::line_colored`. -/
theorem lineOps_apply_some (cv : Canvas) (x1 y1 x2 y2 : ℕ) (c : PixelColor) :
    applyOps (lineOps (some c) x1 y1 x2 y2) cv = cv.lineColored x1 y1 x2 y2 c := by
  simp [applyOps, lineOps, Canvas.lineColored, List.foldl_map, POp.apply]

/-- `Shape` of `textplots/mod.rs`; sample pairs are finite `f32` values,
modelled as exact rationals. -/
inductive Shape where
  | continuous (f : FQ → FQ)
  | points (dt : List (ℚ × ℚ))
  | lines (dt : List (ℚ × ℚ))
  | steps (dt : List (ℚ × ℚ))
  | bars (dt : List (ℚ × ℚ))

/-- `ChartRangeMethod`. -/
inductive RangeMethod where
  | autoRange
  | fixedRange
  deriving DecidableEq

/-- `Chart` of `textplots/mod.rs`. -/
structure Chart where
  width : ℕ
  height : ℕ
  xmin : FQ
  xmax : FQ
  ymin : FQ
  ymax : FQ
  yRanging : RangeMethod
  shapes : List (Shape × Option PixelColor)
  canvas : Canvas

/-- `Chart::new`; the panic on a width or height below 32 is modelled as
`none`, so no partial `Chart` (or `Canvas`) value exists in that case. -/
def Chart.new (width height : ℕ) (xmin xmax : FQ) : Option Chart :=
  if width < 32 then none
  else if height < 32 then none
  else some ⟨width, height, xmin, xmax, .pinf, .ninf, .autoRange, [], Canvas.new width height⟩

/-- `Chart::new_with_y_range`; the panic is modelled as `none`. -/
def Chart.newWithYRange (width height : ℕ) (xmin xmax ymin ymax : FQ) : Option Chart :=
  if width < 32 then none
  else if height < 32 then none
  else some ⟨width, height, xmin, xmax, ymin, ymax, .fixedRange, [], Canvas.new width height⟩

/-- The x scale built by the chart: `Scale::new(xmin..xmax, 0.0..width)`. -/
def Chart.xScale (ch : Chart) : Scale := ⟨ch.xmin, ch.xmax, .fin 0, .fin ch.width⟩

/-- The y scale built by the chart: `Scale::new(ymin..ymax, 0.0..height)`. -/
def Chart.yScale (ch : Chart) : Scale := ⟨ch.ymin, ch.ymax, .fin 0, .fin ch.height⟩

/-- The `ys` vector of `Chart::rescale`: for a continuous shape the normal
values of `f` sampled once per horizontal dot, for a discrete shape the `y`
of every sample whose `x` lies inside `[xmin, xmax]`. -/
def Chart.rescaleYs (ch : Chart) (s : Shape) : List ℚ :=
  match s with
  | .continuous f =>
    (List.range ch.width).filterMap (fun i =>
      let y := f (ch.xScale.invLinear (.fin i))
      if y.isNormal then (match y with | .fin q => some q | _ => none) else none)
  | .points dt | .lines dt | .steps dt | .bars dt =>
    dt.filterMap (fun p =>
      if ch.xmin.ble (.fin p.1) && (FQ.fin p.1).ble ch.xmax then some p.2 else none)

/-- `iter().max_by(partial_cmp ...)` with default `0.0` on a list of finite
values: the maximum, or `0` for an empty list. -/
def listMaxD0 : List ℚ → ℚ
  | [] => 0
  | q :: qs => qs.foldl Max.max q

/-- `iter().min_by(partial_cmp ...)` with default `0.0`. -/
def listMinD0 : List ℚ → ℚ
  | [] => 0
  | q :: qs => qs.foldl Min.min q

/-- `Chart::rescale`: widen `[ymin, ymax]` by the shape's y extent. -/
def Chart.rescale (ch : Chart) (s : Shape) : Chart :=
  let ys := ch.rescaleYs s
  { ch with ymin := ch.ymin.fmin (.fin (listMinD0 ys)),
            ymax := ch.ymax.fmax (.fin (listMaxD0 ys)) }

/-- `Plot::lineplot`: append the shape (uncolored) and, in auto-range mode,
rescale. -/
def Chart.lineplot (ch : Chart) (s : Shape) : Chart :=
  let ch' := { ch with shapes := ch.shapes ++ [(s, none)] }
  if ch'.yRanging = .autoRange then ch'.rescale s else ch'

/-- `ColorPlot::linecolorplot`: append the shape with its color and, in
auto-range mode, rescale. -/
def Chart.linecolorplot (ch : Chart) (s : Shape) (c : PixelColor) : Chart :=
  let ch' := { ch with shapes := ch.shapes ++ [(s, some c)] }
  if ch'.yRanging = .autoRange then ch'.rescale s else ch'

/-- Wrapping `u32` subtraction `a - b` (release semantics). -/
def u32sub (a b : ℕ) : ℕ := (((a : ℤ) - (b : ℤ)) % 4294967296).toNat

/-- The projection of one sample of a discrete shape in `Chart::figures`:
`i = xscale.linear(x).round() as u32`, `j = yscale.linear(y).round() as u32`,
kept as `(i, height - j)` iff `i <= width && j <= height`. -/
def projectDiscrete (w h : ℕ) (xs ys : Scale) (p : ℚ × ℚ) : Option (ℕ × ℕ) :=
  let i := FQ.castU32 (xs.linear (.fin p.1)).round
  let j := FQ.castU32 (ys.linear (.fin p.2)).round
  if i ≤ w ∧ j ≤ h then some (i, h - j) else none

/-- The projection of one horizontal dot index for a continuous shape in
`Chart::figures`: dropped unless `f`'s value is normal, otherwise
`(i, height - yscale.linear(y).round() as u32)` with wrapping subtraction. -/
def projectContinuous (h : ℕ) (xs ys : Scale) (f : FQ → FQ) (i : ℕ) : Option (ℕ × ℕ) :=
  let y := f (xs.invLinear (.fin i))
  if y.isNormal then some (i, u32sub h (FQ.castU32 (ys.linear y).round)) else none

/-- The projected point sequence of one shape in `Chart::figures`. -/
def shapePoints (w h : ℕ) (xs ys : Scale) (s : Shape) : List (ℕ × ℕ) :=
  match s with
  | .continuous f => (List.range w).filterMap (projectContinuous h xs ys f)
  | .points dt | .lines dt | .steps dt | .bars dt =>
    dt.filterMap (projectDiscrete w h xs ys)

/-- `points.windows(2)` as a list of consecutive pairs. -/
def windows2 : List α → List (α × α)
  | a :: b :: rest => (a, b) :: windows2 (b :: rest)
  | _ => []

/-- The dot operations issued by `Chart::figures` for one registered
`(shape, color)` pair, given the chart's bounds. -/
def shapeOps (w h : ℕ) (xmin xmax ymin ymax : FQ) (sc : Shape × Option PixelColor) :
    List POp :=
  let xs : Scale := ⟨xmin, xmax, .fin 0, .fin w⟩
  let ys : Scale := ⟨ymin, ymax, .fin 0, .fin h⟩
  let pts := shapePoints w h xs ys sc.1
  match sc.1 with
  | .continuous _ | .lines _ =>
    (windows2 pts).flatMap (fun pr => lineOps sc.2 pr.1.1 pr.1.2 pr.2.1 pr.2.2)
  | .points _ => pts.map POp.set
  | .steps _ =>
    (windows2 pts).flatMap (fun pr =>
      lineOps sc.2 pr.1.1 pr.2.2 pr.2.1 pr.2.2 ++ lineOps sc.2 pr.1.1 pr.1.2 pr.1.1 pr.2.2)
  | .bars _ =>
    (windows2 pts).flatMap (fun pr =>
      lineOps sc.2 pr.1.1 pr.2.2 pr.2.1 pr.2.2
        ++ lineOps sc.2 pr.1.1 pr.1.2 pr.1.1 pr.2.2
        ++ lineOps sc.2 pr.1.1 h pr.1.1 pr.1.2
        ++ lineOps sc.2 pr.2.1 h pr.2.1 pr.2.2)

/-- All dot operations of one `Chart::figures` pass, in order. -/
def Chart.figuresOps (ch : Chart) : List POp :=
  ch.shapes.flatMap (shapeOps ch.width ch.height ch.xmin ch.xmax ch.ymin ch.ymax)

/-- `Chart::figures`: rasterize every registered shape onto the canvas. -/
def Chart.figures (ch : Chart) : Chart :=
  { ch with canvas := applyOps ch.figuresOps ch.canvas }

/-- `Chart::vline`: every third dot row of column `i`, if `i <= width`. -/
def Chart.vlineOps (ch : Chart) (i : ℕ) : List POp :=
  if i ≤ ch.width then
    ((List.range (ch.height + 1)).filter (fun j => j % 3 == 0)).map (fun j => POp.set (i, j))
  else []

/-- `Chart::hline`: every third dot column of row `height - j`, if
`j <= height`. -/
def Chart.hlineOps (ch : Chart) (j : ℕ) : List POp :=
  if j ≤ ch.height then
    ((List.range (ch.width + 1)).filter (fun i => i % 3 == 0)).map
      (fun i => POp.set (i, ch.height - j))
  else []

/-- The dot operations of `Chart::axis`: a vline at the projection of `x = 0`
when `xmin <= 0 <= xmax`, an hline at the projection of `y = 0` when
`ymin <= 0 <= ymax`. -/
def Chart.axisOps (ch : Chart) : List POp :=
  (if ch.xmin.ble (.fin 0) && (FQ.fin 0).ble ch.xmax then
    ch.vlineOps (FQ.castU32 (ch.xScale.linear (.fin 0))) else [])
  ++ (if ch.ymin.ble (.fin 0) && (FQ.fin 0).ble ch.ymax then
    ch.hlineOps (FQ.castU32 (ch.yScale.linear (.fin 0))) else [])

/-- `Chart::axis`. -/
def Chart.axis (ch : Chart) : Chart :=
  { ch with canvas := applyOps ch.axisOps ch.canvas }

/-- One decimal digit as a character. -/
def digCh : ℕ → Char
  | 0 => '0'
  | 1 => '1'
  | 2 => '2'
  | 3 => '3'
  | 4 => '4'
  | 5 => '5'
  | 6 => '6'
  | 7 => '7'
  | 8 => '8'
  | _ => '9'

/-- Decimal digits of a natural number (fuelled division recursion). -/
def natCharsAux : ℕ → ℕ → List Char
  | 0, _ => []
  | fuel + 1, n => if n < 10 then [digCh n] else natCharsAux fuel (n / 10) ++ [digCh (n % 10)]

/-- Decimal digits of a natural number. -/
def natChars (n : ℕ) : List Char := natCharsAux (n + 1) n

/-- Round half to even, the tie-breaking rule of Rust's float `Display`
formatting with a precision. -/
def rhe (q : ℚ) : ℤ :=
  let f := ⌊q⌋
  let r := q - (f : ℚ)
  if r < 1 / 2 then f
  else if 1 / 2 < r then f + 1
  else if f % 2 = 0 then f else f + 1

/-- `format!("{:.1}", q)` for a finite value: one decimal digit. -/
def fmtQ1 (q : ℚ) : List Char :=
  let n := rhe (q * 10)
  (if n < 0 then ['-'] else []) ++ natChars (n.natAbs / 10) ++ '.' :: natChars (n.natAbs % 10)

/-- `format!("{:.1}", v)` on the `f32` model (negative zero, which the model
does not represent, would print `-0.0`). -/
def fmt1 : FQ → List Char
  | .nan => ['N', 'a', 'N']
  | .pinf => ['i', 'n', 'f']
  | .ninf => ['-', 'i', 'n', 'f']
  | .fin q => fmtQ1 q

/-- `format!("{: <w$}", s)`: left-align, pad on the right with spaces. -/
def padTo (s : List Char) (w : ℕ) : List Char :=
  s ++ List.replicate (w - s.length) ' '

/-- `str::find('\n')`: position of the first newline. -/
def firstNl : List Char → Option ℕ
  | [] => none
  | c :: rest => if c = '\n' then some 0 else (firstNl rest).map (· + 1)

/-- The frame taken by `Chart::to_string`: `figures()`, then `axis()`, then
`canvas.frame()`. -/
def Chart.renderedFrame (ch : Chart) : List Char :=
  ch.figures.axis.canvas.frameChars

/-- `Chart::to_string`: the frame is returned unmodified when it has no
newline; otherwise `" {ymax}"` is inserted at the first newline and
`" {ymin}\n{xmin: <width/2-3}{xmax}\n"` is appended. -/
def Chart.toStringText (ch : Chart) : List Char :=
  let f := ch.renderedFrame
  match firstNl f with
  | none => f
  | some idx =>
    f.take idx ++ (' ' :: fmt1 ch.ymax) ++ f.drop idx
      ++ (' ' :: fmt1 ch.ymin)
      ++ '\n' :: (padTo (fmt1 ch.xmin) (ch.width / 2 - 3) ++ fmt1 ch.xmax)
      ++ ['\n']

/-- Split a character list at newlines (inverse of `joinNl`). -/
def splitNl : List Char → List (List Char)
  | [] => [[]]
  | c :: rest =>
    if c = '\n' then [] :: splitNl rest
    else
      match splitNl rest with
      | [] => [[c]]
      | r :: rs => (c :: r) :: rs

/-- Whether `n` occurs as a contiguous substring of the second list. -/
def containsSub (n : List Char) : List Char → Bool
  | [] => n.isEmpty
  | c :: rest => n.isPrefixOf (c :: rest) || containsSub n rest

/-- A canvas dot operation, as issued by any of the five dot-level methods. -/
inductive COp where
  | set (x y : ℕ)
  | setColored (x y : ℕ) (c : PixelColor)
  | setChar (x y : ℕ) (ch : Char)
  | unset (x y : ℕ)
  | toggle (x y : ℕ)
  deriving DecidableEq

/-- The cell a dot operation addresses. -/
def COp.cell : COp → ℕ × ℕ
  | .set x y => cellKey x y
  | .setColored x y _ => cellKey x y
  | .setChar x y _ => cellKey x y
  | .unset x y => cellKey x y
  | .toggle x y => cellKey x y

/-- Apply a dot operation to a canvas. -/
def COp.apply (o : COp) (cv : Canvas) : Canvas :=
  match o with
  | .set x y => cv.set x y
  | .setColored x y c => cv.setColored x y c
  | .setChar x y c => cv.setChar x y c
  | .unset x y => cv.unset x y
  | .toggle x y => cv.toggle x y

/-- Apply a sequence of dot operations in order. -/
def applySeq (ops : List COp) (cv : Canvas) : Canvas :=
  ops.foldl (fun c o => o.apply c) cv

/-- Whether an operation writes the whole-cell attributes (`set`,
`set_colored`, `set_char`). -/
def COp.isSetter : COp → Bool
  | .set _ _ => true
  | .setColored _ _ _ => true
  | .setChar _ _ _ => true
  | .unset _ _ => false
  | .toggle _ _ => false

/-- The whole-cell attributes (override char, colored flag, color) written
by a setter operation. -/
def COp.attrs : COp → Char × Bool × PixelColor
  | .set _ _ => (' ', false, .white)
  | .setColored _ _ c => (' ', true, c)
  | .setChar _ _ ch => (ch, false, .white)
  | .unset _ _ => (' ', false, .white)
  | .toggle _ _ => (' ', false, .white)

/-- The whole-cell attributes stored for a cell. -/
def Canvas.attrsAt (cv : Canvas) (k : ℕ × ℕ) : Option (Char × Bool × PixelColor) :=
  (lookupCell cv.chars k).map (fun a => (a.ch, a.colored, a.color))

/-- The most recent setter operation addressing cell `k` in a sequence. -/
def lastSetterOn (ops : List COp) (k : ℕ × ℕ) : Option COp :=
  (ops.filter (fun o => o.isSetter && o.cell == k)).getLast?

/-! ### The plugin-side value model (`src/lib.rs`)

`nu_protocol`'s `Value` and `Type` are external collaborators of this
repository; they are modelled here at their interface boundary: a value is
an int, a float, a string, a list or nothing, `as_list` succeeds exactly on
lists, and the type of a list is `list<t>` for the common type `t` of its
elements (`any` when empty or mixed). -/

/-- Model of `nu_protocol::Type`. -/
inductive NuTy where
  | int
  | float
  | str
  | listT (t : NuTy)
  | nothing
  | any
  deriving DecidableEq

/-- Model of `nu_protocol::Value`. -/
inductive NuVal where
  | int (i : ℤ)
  | float (q : ℚ)
  | str (s : List Char)
  | list (l : List NuVal)
  | nothing

/-- The common element type of a list value (`any` when empty or mixed). -/
def listInner : List NuTy → NuTy
  | [] => .any
  | t :: ts => if ts.all (fun u => u == t) then t else .any

mutual

/-- `Value::get_type` (modelled at the interface boundary, see above). -/
def NuVal.getType : NuVal → NuTy
  | .int _ => .int
  | .float _ => .float
  | .str _ => .str
  | .nothing => .nothing
  | .list l => .listT (listInner (typesOf l))

/-- The types of a list of values. -/
def typesOf : List NuVal → List NuTy
  | [] => []
  | v :: vs => v.getType :: typesOf vs

end

/-- `Value::as_list`: succeeds exactly on list values. -/
def NuVal.asList : NuVal → Option (List NuVal)
  | .list l => some l
  | _ => none

/-- `get_value_type_or_list_length`. -/
def getValueTypeOrListLength (v : NuVal) : NuTy × Option ℕ :=
  (v.getType, v.asList.map List.length)

/-- The labelled errors `check_equality_of_list` can return. -/
inductive CEErr where
  | typeDiff
  | lenDiff
  | innerType
  | notAList
  deriving DecidableEq

/-- Result of `check_equality_of_list`: a panic (out-of-bounds index), a
labelled error, or the common type and list length. -/
inductive CERes where
  | panicked
  | ok (t : NuTy) (len : Option ℕ)
  | err (e : CEErr)
  deriving DecidableEq

/-- `check_equality_of_list` of `src/lib.rs`: the indexing `types[0]` and
`l[0].as_list()?[0]` panic when out of bounds, modelled by `.panicked`. -/
def checkEqualityOfList (l : List NuVal) : CERes :=
  let types := l.map (fun v => (getValueTypeOrListLength v).1)
  let lenOps := l.map (fun v => (getValueTypeOrListLength v).2)
  match types with
  | [] => .panicked
  | t0 :: _ =>
    if types.all (fun t => t == t0) then
      match lenOps with
      | [] => .panicked
      | l0 :: _ =>
        if lenOps.all (fun e => e == l0) then
          match l0 with
          | none => .ok t0 l0
          | some _ =>
            match l with
            | [] => .panicked
            | v0 :: _ =>
              match v0.asList with
              | none => .err .notAList
              | some inner =>
                match inner with
                | [] => .panicked
                | w :: _ =>
                  match w.getType with
                  | .int => .ok t0 l0
                  | .float => .ok t0 l0
                  | _ => .err .innerType
        else .err .lenDiff
    else .err .typeDiff

/-! ## Basic lemmas about the cell map -/

theorem lookupCell_entryMod_self (m : CellMap) (k : ℕ × ℕ) (g : Cell → Cell) :
    lookupCell (entryMod k g m) k = some (g ((lookupCell m k).getD defaultCell)) := by
  induction m with
  | nil => simp [entryMod, lookupCell]
  | cons e rest ih =>
    by_cases h : e.1 = k
    · simp [entryMod, lookupCell, h]
    · simp [entryMod, lookupCell, h, ih]

theorem lookupCell_entryMod_ne (m : CellMap) (k k' : ℕ × ℕ) (g : Cell → Cell)
    (h : k' ≠ k) : lookupCell (entryMod k g m) k' = lookupCell m k' := by
  induction m with
  | nil => simp [entryMod, lookupCell, Ne.symm h]
  | cons e rest ih =>
    by_cases he : e.1 = k
    · subst he
      simp [entryMod, lookupCell, Ne.symm h]
    · by_cases he' : e.1 = k'
      · simp [entryMod, lookupCell, he, he', h]
      · simp [entryMod, lookupCell, he, he', ih]

theorem entryMod_not_mem (m : CellMap) (k : ℕ × ℕ) (g : Cell → Cell)
    (h : lookupCell m k = none) : entryMod k g m = m ++ [(k, g defaultCell)] := by
  induction m with
  | nil => simp [entryMod]
  | cons e rest ih =>
    by_cases he : e.1 = k
    · simp [lookupCell, he] at h
    · simp [lookupCell, he] at h
      simp [entryMod, he, ih h]

theorem lookupCell_append_of_none (m1 m2 : CellMap) (k : ℕ × ℕ)
    (h : lookupCell m1 k = none) : lookupCell (m1 ++ m2) k = lookupCell m2 k := by
  induction m1 with
  | nil => simp
  | cons e rest ih =>
    by_cases he : e.1 = k
    · simp [lookupCell, he] at h
    · simp [lookupCell, he] at h ⊢
      exact ih h

/-! ## C2: the golden canvas scenario -/

/-- C2: on a canvas built by `Canvas::new(10, 10)`, performing `set(5, 4)`
then `line(2, 2, 8, 8)` makes `rows()` return exactly the three rows
`" ⢄    "`, `"  ⠙⢄  "`, `"    ⠁ "` and `frame()` their newline join. -/
theorem golden_canvas_frame :
    (((Canvas.new 10 10).set 5 4).line 2 2 8 8).rowsChars
      = [(" ⢄    ").toList, ("  ⠙⢄  ").toList, ("    ⠁ ").toList]
    ∧ (((Canvas.new 10 10).set 5 4).line 2 2 8 8).frameChars
      = (" ⢄    \n  ⠙⢄  \n    ⠁ ").toList := by
  constructor
  · decide
  · decide

/-! ## C5: construction fails fast exactly below the 32-dot floor -/

/-- C5: `Chart::new` and `Chart::new_with_y_range` fail (panic, modelled as
`none`) exactly when `width < 32` or `height < 32`, in which case no partial
`Chart` or `Canvas` is produced; otherwise construction succeeds with an
empty shape list. -/
theorem chart_new_fails_iff (w h : ℕ) (xmin xmax ymin ymax : FQ) :
    (Chart.new w h xmin xmax = none ↔ w < 32 ∨ h < 32)
    ∧ (Chart.newWithYRange w h xmin xmax ymin ymax = none ↔ w < 32 ∨ h < 32)
    ∧ (∀ ch, Chart.new w h xmin xmax = some ch → ch.shapes = [])
    ∧ (∀ ch, Chart.newWithYRange w h xmin xmax ymin ymax = some ch → ch.shapes = []) := by
  unfold Chart.new Chart.newWithYRange
  refine ⟨?_, ?_, ?_, ?_⟩ <;> split_ifs <;> simp_all

/-- Witness for C5: a 31-wide chart is rejected, a 32×32 chart is built with
an empty shape list. -/
theorem chart_new_fails_iff_witness :
    Chart.new 31 40 (.fin 0) (.fin 1) = none
    ∧ (Chart.new 32 32 (.fin 0) (.fin 1)).map Chart.shapes = some [] := by
  constructor
  · exact (chart_new_fails_iff 31 40 (.fin 0) (.fin 1) (.fin 0) (.fin 1)).1.mpr
      (Or.inl (by decide))
  · have h := (chart_new_fails_iff 32 32 (.fin 0) (.fin 1) (.fin 0) (.fin 1)).2.2.1
    have e : Chart.new 32 32 (.fin 0) (.fin 1)
        = some ⟨32, 32, .fin 0, .fin 1, .pinf, .ninf, .autoRange, [], Canvas.new 32 32⟩ := rfl
    rw [e] at h ⊢
    simp [h _ rfl]

/-! ## C7: `Canvas::text` stops strictly after `max_width` -/

theorem textGo_enumFrom (s : List Char) (cv : Canvas) (x y maxW i : ℕ) :
    Canvas.textGo cv x y maxW i s
      = ((List.enumFrom i s).takeWhile (fun p => decide (2 * p.1 ≤ maxW))).foldl
          (fun c p => c.setChar (x + 2 * p.1) y p.2) cv := by
  induction s generalizing cv i with
  | nil => simp [Canvas.textGo, List.enumFrom]
  | cons c rest ih =>
    by_cases h : maxW < 2 * i
    · have h2 : ¬ (2 * i ≤ maxW) := by omega
      simp [Canvas.textGo, h, List.enumFrom, List.takeWhile, h2]
    · have h2 : 2 * i ≤ maxW := by omega
      simp [Canvas.textGo, h, List.enumFrom, List.takeWhile, h2, ih]

theorem mem_takeWhile_le (s : List Char) (maxW : ℕ) (p : ℕ × Char) :
    ∀ i, p ∈ (List.enumFrom i s).takeWhile (fun p => decide (2 * p.1 ≤ maxW))
      ↔ (p ∈ List.enumFrom i s ∧ 2 * p.1 ≤ maxW) := by
  induction s with
  | nil => intro i; simp [List.enumFrom]
  | cons c rest ih =>
    intro i
    by_cases h : 2 * i ≤ maxW
    · simp only [List.enumFrom, List.takeWhile_cons, decide_eq_true_eq, if_pos h,
        List.mem_cons]
      constructor
      · rintro (rfl | hp)
        · exact ⟨Or.inl rfl, h⟩
        · rcases (ih (i + 1)).mp hp with ⟨h1, h2⟩
          exact ⟨Or.inr h1, h2⟩
      · rintro ⟨rfl | hp, h2⟩
        · exact Or.inl rfl
        · exact Or.inr ((ih (i + 1)).mpr ⟨hp, h2⟩)
    · simp only [List.enumFrom, List.takeWhile_cons, decide_eq_true_eq, if_neg h,
        List.mem_cons]
      constructor
      · intro hp; simp at hp
      · rintro ⟨rfl | hp, h2⟩
        · exact absurd h2 h
        · rcases List.mem_enumFrom hp with ⟨h1, _, _⟩
          omega

/-- C7: `text(x, y, maxWidth, s)` places exactly the characters whose
horizontal offset `2 * i` does not strictly exceed `maxWidth` (so one at
exactly `maxWidth` is placed), each via `set_char` at offset `2 * i` from
`x`, stopping at the first character whose offset exceeds `maxWidth`. -/
theorem text_places_prefix (cv : Canvas) (x y maxW : ℕ) (s : List Char) :
    cv.text x y maxW s
      = ((s.enum.takeWhile (fun p => decide (2 * p.1 ≤ maxW))).foldl
          (fun c p => c.setChar (x + 2 * p.1) y p.2) cv)
    ∧ (∀ p : ℕ × Char,
        p ∈ s.enum.takeWhile (fun p => decide (2 * p.1 ≤ maxW))
          ↔ (p ∈ s.enum ∧ 2 * p.1 ≤ maxW)) := by
  constructor
  · exact textGo_enumFrom s cv x y maxW 0
  · intro p
    exact mem_takeWhile_le s maxW p 0

/-! ## C9: `check_equality_of_list` panics exactly on an empty first inner
list -/

/-- C9: on a non-empty list whose values all have the same type and the
same list-length, `check_equality_of_list` completes without panicking iff,
when its first element is a list, that inner list is non-empty; a
well-typed input whose first element is an empty list reaches the
out-of-bounds index `l[0].as_list()?[0]` instead of returning an error. -/
theorem checkEquality_panics_iff (v0 : NuVal) (rest : List NuVal)
    (hty : ∀ v ∈ v0 :: rest, v.getType = v0.getType)
    (hlen : ∀ v ∈ v0 :: rest, v.asList.map List.length = v0.asList.map List.length) :
    checkEqualityOfList (v0 :: rest) ≠ .panicked
      ↔ (∀ inner, v0 = .list inner → inner ≠ []) := by
  have hall1 : ((v0 :: rest).map (fun v => (getValueTypeOrListLength v).1)).all
      (fun t => t == v0.getType) = true := by
    simp only [List.all_eq_true, List.mem_map]
    rintro t ⟨v, hv, rfl⟩
    simpa [getValueTypeOrListLength] using hty v hv
  have hall2 : ((v0 :: rest).map (fun v => (getValueTypeOrListLength v).2)).all
      (fun e => e == v0.asList.map List.length) = true := by
    simp only [List.all_eq_true, List.mem_map]
    rintro e ⟨v, hv, rfl⟩
    simpa [getValueTypeOrListLength] using hlen v hv
  unfold checkEqualityOfList
  simp only [List.map_cons, getValueTypeOrListLength] at hall1 hall2 ⊢
  rw [hall1, hall2]
  simp only [if_true]
  cases v0 with
  | int i => simp [NuVal.asList]
  | float q => simp [NuVal.asList]
  | str s => simp [NuVal.asList]
  | nothing => simp [NuVal.asList]
  | list inner =>
    cases inner with
    | nil => simp [NuVal.asList]
    | cons w ws =>
      simp only [NuVal.asList]
      constructor
      · intro _ i hi
        cases hi
        simp
      · intro _
        cases w.getType <;> simp

/-- Witness for C9: a singleton list holding a one-element inner int list
satisfies the hypotheses and does not panic. -/
theorem checkEquality_panics_iff_witness :
    checkEqualityOfList [.list [.int 1]] ≠ .panicked := by
  have h := checkEquality_panics_iff (.list [.int 1]) [] (by simp) (by simp)
  refine h.mpr ?_
  intro inner hi
  cases hi
  simp

/-! ## C3: whole-cell attributes follow the most recent setter -/

theorem applySeq_append (ops1 ops2 : List COp) (cv : Canvas) :
    applySeq (ops1 ++ ops2) cv = applySeq ops2 (applySeq ops1 cv) := by
  simp [applySeq, List.foldl_append]

theorem attrsAt_apply_setter (cv : Canvas) (o : COp)
    (hs : o.isSetter = true) : (o.apply cv).attrsAt o.cell = some o.attrs := by
  cases o <;> simp_all [COp.isSetter, COp.apply, COp.cell, COp.attrs, Canvas.attrsAt,
    Canvas.set, Canvas.setColored, Canvas.setChar, lookupCell_entryMod_self]

theorem attrsAt_apply_other (cv : Canvas) (o : COp) (k : ℕ × ℕ)
    (A : Char × Bool × PixelColor)
    (h : ¬ (o.isSetter = true ∧ o.cell = k))
    (ha : cv.attrsAt k = some A) : (o.apply cv).attrsAt k = some A := by
  by_cases hk : o.cell = k
  · cases o with
    | set x y => exact absurd ⟨rfl, hk⟩ h
    | setColored x y c => exact absurd ⟨rfl, hk⟩ h
    | setChar x y c => exact absurd ⟨rfl, hk⟩ h
    | unset x y =>
      simp only [COp.cell] at hk
      simp only [COp.apply, Canvas.unset, Canvas.attrsAt] at ha ⊢
      rw [hk, lookupCell_entryMod_self]
      rcases ho : lookupCell cv.chars k with _ | a
      · rw [ho] at ha; simp at ha
      · rw [ho] at ha
        simpa using ha
    | toggle x y =>
      simp only [COp.cell] at hk
      simp only [COp.apply, Canvas.toggle, Canvas.attrsAt] at ha ⊢
      rw [hk, lookupCell_entryMod_self]
      rcases ho : lookupCell cv.chars k with _ | a
      · rw [ho] at ha; simp at ha
      · rw [ho] at ha
        simpa using ha
  · have hk' : k ≠ o.cell := fun hh => hk hh.symm
    have : (o.apply cv).attrsAt k = cv.attrsAt k := by
      cases o <;>
      · simp only [COp.apply, COp.cell, Canvas.attrsAt, Canvas.set, Canvas.setColored,
          Canvas.setChar, Canvas.unset, Canvas.toggle] at hk' ⊢
        rw [lookupCell_entryMod_ne _ _ _ _ (by simpa [COp.cell] using hk')]
    rw [this, ha]

/-- C3: the cell's override character, colored flag and colour after any
sequence of dot operations are exactly those written by the most recent
setter (`set`, `set_colored` or `set_char`) addressing any dot of that
cell, regardless of earlier writes; and each single setter rewrites the
whole-cell attributes while `set`/`set_colored` OR the dot bit and
`set_char` zeroes the mask. -/
theorem cell_attrs_last_write (ops : List COp) (cv : Canvas) (k : ℕ × ℕ) (o : COp)
    (h : lastSetterOn ops k = some o) (x y : ℕ) (c : PixelColor) (ch : Char) :
    (applySeq ops cv).attrsAt k = some o.attrs
    ∧ lookupCell (cv.set x y).chars (cellKey x y)
        = some ⟨((lookupCell cv.chars (cellKey x y)).getD defaultCell).mask ||| dotBit x y,
                ' ', false, .white⟩
    ∧ lookupCell (cv.setColored x y c).chars (cellKey x y)
        = some ⟨((lookupCell cv.chars (cellKey x y)).getD defaultCell).mask ||| dotBit x y,
                ' ', true, c⟩
    ∧ lookupCell (cv.setChar x y ch).chars (cellKey x y) = some ⟨0, ch, false, .white⟩ := by
  refine ⟨?_, ?_, ?_, ?_⟩
  · induction ops using List.reverseRecOn generalizing o with
    | nil => simp [lastSetterOn] at h
    | append_singleton l o' ih =>
      rw [applySeq_append]
      by_cases hsel : o'.isSetter = true ∧ o'.cell = k
      · have hlast : lastSetterOn (l ++ [o']) k = some o' := by
          simp [lastSetterOn, List.filter_append, List.filter, hsel.1, hsel.2,
            List.getLast?_concat]
        rw [h] at hlast
        have ho : o = o' := Option.some.inj hlast
        subst ho
        have hs := attrsAt_apply_setter (applySeq l cv) o hsel.1
        rw [hsel.2] at hs
        simpa [applySeq] using hs
      · have hb : (o'.isSetter && o'.cell == k) = false := by
          rcases Bool.eq_false_or_eq_true (o'.isSetter && o'.cell == k) with hb | hb
          · rw [Bool.and_eq_true, beq_iff_eq] at hb
            exact absurd hb hsel
          · exact hb
        have hfil : (List.filter (fun o => o.isSetter && o.cell == k) [o']) = [] := by
          simp [List.filter_cons, hb]
        have hlast : lastSetterOn l k = some o := by
          have h2 := h
          unfold lastSetterOn at h2 ⊢
          rwa [List.filter_append, hfil, List.append_nil] at h2
        have hA := ih _ hlast
        simpa [applySeq] using attrsAt_apply_other _ o' k _ hsel hA
  · simp [Canvas.set, lookupCell_entryMod_self]
  · simp [Canvas.setColored, lookupCell_entryMod_self]
  · simp [Canvas.setChar, lookupCell_entryMod_self]

/-- Witness for C3: after an earlier colored write to cell `(0, 0)`, a later
`set` on the other dot of the same cell leaves the whole-cell attributes at
`(' ', false, White)`. -/
theorem cell_attrs_last_write_witness :
    (applySeq [COp.setColored 0 0 .brightRed, COp.set 1 0] (Canvas.new 32 32)).attrsAt (0, 0)
      = some (' ', false, .white) :=
  (cell_attrs_last_write [COp.setColored 0 0 .brightRed, COp.set 1 0] (Canvas.new 32 32)
    (0, 0) (.set 1 0) (by decide) 0 0 .white ' ').1

/-! ## C10: a bit-clearing `unset` grows the serialized frame -/

theorem le_foldl_max {α : Type} (f : α → ℕ) (l : List α) (init : ℕ) :
    init ≤ l.foldl (fun m e => Max.max m (f e)) init := by
  induction l generalizing init with
  | nil => simp
  | cons e rest ih => exact le_trans (le_max_left _ _) (ih _)

theorem mem_le_foldl_max {α : Type} (f : α → ℕ) (l : List α) (init : ℕ) (e : α)
    (he : e ∈ l) : f e ≤ l.foldl (fun m b => Max.max m (f b)) init := by
  induction l generalizing init with
  | nil => cases he
  | cons a rest ih =>
    rcases List.mem_cons.mp he with rfl | hm
    · exact le_trans (le_max_right _ _) (le_foldl_max f rest _)
    · exact ih _ hm

theorem foldl_max_concat {α : Type} (f : α → ℕ) (l : List α) (e : α) (init : ℕ) :
    (l ++ [e]).foldl (fun m b => Max.max m (f b)) init
      = Max.max (l.foldl (fun m b => Max.max m (f b)) init) (f e) := by
  simp [List.foldl_append]

theorem lookupCell_none_of_all (m : CellMap) (k : ℕ × ℕ)
    (h : ∀ e ∈ m, e.1 ≠ k) : lookupCell m k = none := by
  induction m with
  | nil => rfl
  | cons e rest ih =>
    have h1 := h e (by simp)
    simp only [lookupCell, if_neg h1]
    exact ih (fun a ha => h a (by simp [ha]))

theorem entryMod_append_key (m : CellMap) (k : ℕ × ℕ) (v : Cell) (g : Cell → Cell)
    (h : lookupCell m k = none) : entryMod k g (m ++ [(k, v)]) = m ++ [(k, g v)] := by
  induction m with
  | nil => simp [entryMod]
  | cons e rest ih =>
    by_cases he : e.1 = k
    · simp [lookupCell, he] at h
    · simp [lookupCell, he] at h
      simp [entryMod, he, ih h]

theorem foldl_renderConst (g : ℕ → List Char) (n : ℕ) (h : ∀ x < n, g x = [' ']) :
    ∀ acc, (List.range n).foldl (fun acc x => acc ++ g x) acc
      = acc ++ List.replicate n ' ' := by
  induction n with
  | zero => intro acc; simp
  | succ n ih =>
    intro acc
    rw [List.range_succ, List.foldl_append]
    rw [ih (fun x hx => h x (by omega)) acc]
    simp [h n (by omega), List.replicate_succ']

/-- C10: `unset(x, y)` on a dot whose cell lies strictly beyond the current
effective bounds inserts an empty cell entry into the sparse map although no
dot becomes set: `get(x, y)` stays false, yet `rows()` (hence `frame()`)
grows to include that cell's row and column, the fresh last row rendered as
spaces; toggling the same dot twice produces the same grown canvas. -/
theorem unset_grows (cv : Canvas) (x y : ℕ)
    (hr : cv.maxrow < x / 2 % 65536) (hc : cv.maxcol < y / 4 % 65536) :
    lookupCell (cv.unset x y).chars (cellKey x y) = some defaultCell
    ∧ (cv.unset x y).get x y = false
    ∧ (cv.unset x y).maxrow = x / 2 % 65536
    ∧ (cv.unset x y).maxcol = y / 4 % 65536
    ∧ (cv.unset x y).rowsChars.length = y / 4 % 65536 + 1
    ∧ cv.rowsChars.length < (cv.unset x y).rowsChars.length
    ∧ (cv.unset x y).rowsChars.getLast? = some (List.replicate (x / 2 % 65536 + 1) ' ')
    ∧ (cv.toggle x y).toggle x y = cv.unset x y := by
  set r := x / 2 % 65536 with hrdef
  set c := y / 4 % 65536 with hcdef
  have hkey : cellKey x y = (r, c) := rfl
  have hnone : lookupCell cv.chars (r, c) = none := by
    refine lookupCell_none_of_all _ _ (fun e he => ?_)
    intro hkeq
    have h1 : e.1.1 ≤ cv.maxrow := mem_le_foldl_max (fun e => e.1.1) cv.chars cv.width e he
    rw [hkeq] at h1
    omega
  have hchars : (cv.unset x y).chars = cv.chars ++ [((r, c), defaultCell)] := by
    show entryMod (cellKey x y) _ cv.chars = _
    rw [hkey, entryMod_not_mem _ _ _ hnone]
    simp [defaultCell, Nat.zero_and]
  have hmaxrow : (cv.unset x y).maxrow = r := by
    show ((cv.unset x y).chars).foldl _ (cv.unset x y).width = r
    have hw : (cv.unset x y).width = cv.width := rfl
    rw [hchars, hw, foldl_max_concat (fun e => e.1.1) cv.chars ((r, c), defaultCell) cv.width]
    exact Nat.max_eq_right (le_of_lt hr)
  have hmaxcol : (cv.unset x y).maxcol = c := by
    show ((cv.unset x y).chars).foldl _ (cv.unset x y).height = c
    have hh : (cv.unset x y).height = cv.height := rfl
    rw [hchars, hh, foldl_max_concat (fun e => e.1.2) cv.chars ((r, c), defaultCell) cv.height]
    exact Nat.max_eq_right (le_of_lt hc)
  have hlook : lookupCell (cv.unset x y).chars (cellKey x y) = some defaultCell := by
    rw [hchars, hkey, lookupCell_append_of_none _ _ _ hnone]
    simp [lookupCell]
  refine ⟨hlook, ?_, hmaxrow, hmaxcol, ?_, ?_, ?_, ?_⟩
  · simp [Canvas.get, hlook, defaultCell, Nat.zero_and]
  · simp [Canvas.rowsChars, hmaxcol]
  · have h1 : cv.rowsChars.length = cv.maxcol + 1 := by simp [Canvas.rowsChars]
    have h2 : (cv.unset x y).rowsChars.length = c + 1 := by simp [Canvas.rowsChars, hmaxcol]
    omega
  · have hrow : ∀ x' < r + 1,
        renderCell ((lookupCell (cv.unset x y).chars (x', c)).getD defaultCell) = [' '] := by
      intro x' _
      have hnone' : lookupCell cv.chars (x', c) = none := by
        refine lookupCell_none_of_all _ _ (fun e he => ?_)
        intro hkeq
        have h1 : e.1.2 ≤ cv.maxcol := mem_le_foldl_max (fun e => e.1.2) cv.chars cv.height e he
        rw [hkeq] at h1
        omega
      rw [hchars, lookupCell_append_of_none _ _ _ hnone']
      by_cases hx : x' = r
      · rw [show lookupCell [((r, c), defaultCell)] (x', c) = some defaultCell by
          rw [hx]; simp [lookupCell]]
        simp [renderCell, defaultCell]
      · rw [show lookupCell [((r, c), defaultCell)] (x', c) = none by
          simp only [lookupCell]
          rw [if_neg (fun hh => hx (congrArg Prod.fst hh).symm)]]
        simp [renderCell, defaultCell]
    rw [show (cv.unset x y).rowsChars
        = (List.range ((cv.unset x y).maxcol + 1)).map (fun yy =>
            (List.range ((cv.unset x y).maxrow + 1)).foldl
              (fun acc xx =>
                acc ++ renderCell ((lookupCell (cv.unset x y).chars (xx, yy)).getD defaultCell))
              []) from rfl]
    rw [hmaxcol, hmaxrow, List.range_succ (n := c), List.map_append, List.getLast?_append]
    simp only [List.map_cons, List.map_nil, List.getLast?_singleton]
    rw [foldl_renderConst _ _ hrow []]
    simp
  · have hchars1 : (cv.toggle x y).chars
        = cv.chars ++ [((r, c), ⟨dotBit x y, ' ', false, .white⟩)] := by
      show entryMod (cellKey x y) _ cv.chars = _
      rw [hkey, entryMod_not_mem _ _ _ hnone]
      simp [defaultCell, Nat.zero_xor]
    have hchars2 : ((cv.toggle x y).toggle x y).chars = cv.chars ++ [((r, c), defaultCell)] := by
      show entryMod (cellKey x y) _ (cv.toggle x y).chars = _
      rw [hchars1, hkey, entryMod_append_key _ _ _ _ hnone]
      simp [defaultCell, Nat.xor_self]
    have hw : ((cv.toggle x y).toggle x y).width = (cv.unset x y).width := rfl
    have hh : ((cv.toggle x y).toggle x y).height = (cv.unset x y).height := rfl
    cases cvu : cv.unset x y with
    | mk ch w hgt =>
      cases cvt : (cv.toggle x y).toggle x y with
      | mk ch' w' hgt' =>
        have e1 : ch' = ch := by
          have := hchars2
          rw [cvt] at this
          have h2 := hchars
          rw [cvu] at h2
          simp at this h2
          rw [this, h2]
        have e2 : w' = w := by
          have := hw
          rw [cvu, cvt] at this
          simpa using this
        have e3 : hgt' = hgt := by
          have := hh
          rw [cvu, cvt] at this
          simpa using this
        simp [e1, e2, e3]

/-- Witness for C10: `unset(20, 30)` on a fresh 10×10 canvas inserts the
empty cell `(10, 7)` and grows the rows to 8 space rows of width 11. -/
theorem unset_grows_witness :
    lookupCell ((Canvas.new 10 10).unset 20 30).chars (cellKey 20 30) = some defaultCell
    ∧ ((Canvas.new 10 10).unset 20 30).get 20 30 = false
    ∧ ((Canvas.new 10 10).unset 20 30).rowsChars.length = 8
    ∧ ((Canvas.new 10 10).unset 20 30).rowsChars.getLast? = some (List.replicate 11 ' ') := by
  have h := unset_grows (Canvas.new 10 10) 20 30 (by decide) (by decide)
  exact ⟨h.1, h.2.1, h.2.2.2.2.1, h.2.2.2.2.2.2.1⟩

/-! ## C1: the discrete-sample drop rule of the render pass -/

/-- C1 counterexample: with the scales of a 32×32 chart over x and y domain
`[0, 32]` (on which `linear` is the identity), the sample `(-10, 5)` has
rounded x projection `-10`, outside `[0, width] × [0, height]`, yet the
render pass keeps it — clamped to column 0 by the saturating `as u32` cast —
instead of dropping it as the claim states. -/
theorem project_drop_cex :
    ((⟨.fin 0, .fin 32, .fin 0, .fin 32⟩ : Scale).linear (.fin (-10))).round = .fin (-10)
    ∧ ((-10 : ℚ) < 0)
    ∧ projectDiscrete 32 32 ⟨.fin 0, .fin 32, .fin 0, .fin 32⟩
        ⟨.fin 0, .fin 32, .fin 0, .fin 32⟩ (-10, 5) = some (0, 27) := by
  exact ⟨by with_unfolding_all decide, by decide, by with_unfolding_all decide⟩

/-- C1 (amended): each sample of a discrete shape projects through the
saturating `as u32` cast to `(i, height - j)` with
`i = cast(round(xscale.linear x))` and `j = cast(round(yscale.linear y))` —
so negative rounded coordinates are clamped to 0 and kept, not dropped —
and the sample is dropped iff `i > width` or `j > height`; for the
join-based shapes (Lines, Steps, Bars) a dropped sample disappears from the
point sequence, the surviving neighbours on either side being joined
directly. -/
theorem project_amended (w h : ℕ) (xmin xmax ymin ymax : FQ) (p : ℚ × ℚ)
    (dt1 dt2 : List (ℚ × ℚ)) (co : Option PixelColor)
    (hdrop : projectDiscrete w h ⟨xmin, xmax, .fin 0, .fin w⟩
      ⟨ymin, ymax, .fin 0, .fin h⟩ p = none) :
    (∀ q : ℚ × ℚ,
      (projectDiscrete w h ⟨xmin, xmax, .fin 0, .fin w⟩ ⟨ymin, ymax, .fin 0, .fin h⟩ q = none
        ↔ w < FQ.castU32 ((⟨xmin, xmax, .fin 0, .fin w⟩ : Scale).linear (.fin q.1)).round
          ∨ h < FQ.castU32 ((⟨ymin, ymax, .fin 0, .fin h⟩ : Scale).linear (.fin q.2)).round)
      ∧ (projectDiscrete w h ⟨xmin, xmax, .fin 0, .fin w⟩ ⟨ymin, ymax, .fin 0, .fin h⟩ q ≠ none →
          projectDiscrete w h ⟨xmin, xmax, .fin 0, .fin w⟩ ⟨ymin, ymax, .fin 0, .fin h⟩ q
            = some (FQ.castU32 ((⟨xmin, xmax, .fin 0, .fin w⟩ : Scale).linear (.fin q.1)).round,
                h - FQ.castU32 ((⟨ymin, ymax, .fin 0, .fin h⟩ : Scale).linear (.fin q.2)).round)))
    ∧ shapeOps w h xmin xmax ymin ymax (Shape.lines (dt1 ++ p :: dt2), co)
        = shapeOps w h xmin xmax ymin ymax (Shape.lines (dt1 ++ dt2), co)
    ∧ shapeOps w h xmin xmax ymin ymax (Shape.steps (dt1 ++ p :: dt2), co)
        = shapeOps w h xmin xmax ymin ymax (Shape.steps (dt1 ++ dt2), co)
    ∧ shapeOps w h xmin xmax ymin ymax (Shape.bars (dt1 ++ p :: dt2), co)
        = shapeOps w h xmin xmax ymin ymax (Shape.bars (dt1 ++ dt2), co) := by
  refine ⟨fun q => ⟨?_, ?_⟩, ?_, ?_, ?_⟩
  · unfold projectDiscrete
    by_cases hcond :
        FQ.castU32 ((⟨xmin, xmax, .fin 0, .fin w⟩ : Scale).linear (.fin q.1)).round ≤ w
        ∧ FQ.castU32 ((⟨ymin, ymax, .fin 0, .fin h⟩ : Scale).linear (.fin q.2)).round ≤ h
    · simp only [if_pos hcond]
      constructor
      · intro hh; cases hh
      · intro hh; omega
    · simp only [if_neg hcond]
      constructor
      · intro _; omega
      · intro _; trivial
  · unfold projectDiscrete
    by_cases hcond :
        FQ.castU32 ((⟨xmin, xmax, .fin 0, .fin w⟩ : Scale).linear (.fin q.1)).round ≤ w
        ∧ FQ.castU32 ((⟨ymin, ymax, .fin 0, .fin h⟩ : Scale).linear (.fin q.2)).round ≤ h
    · simp only [if_pos hcond]
      intro _; trivial
    · simp only [if_neg hcond]
      intro hh; exact absurd rfl hh
  · simp only [shapeOps, shapePoints, List.filterMap_append, List.filterMap_cons, hdrop]
  · simp only [shapeOps, shapePoints, List.filterMap_append, List.filterMap_cons, hdrop]
  · simp only [shapeOps, shapePoints, List.filterMap_append, List.filterMap_cons, hdrop]

/-- Witness for C1 (amended): the sample `(100, 5)` projects beyond the
32-dot width and is dropped, so a Lines shape containing it rasterizes to
exactly the operations of the shape without it. -/
theorem project_amended_witness :
    shapeOps 32 32 (.fin 0) (.fin 32) (.fin 0) (.fin 32)
        (Shape.lines [(0, 0), (100, 5), (1, 1)], none)
      = shapeOps 32 32 (.fin 0) (.fin 32) (.fin 0) (.fin 32)
        (Shape.lines [(0, 0), (1, 1)], none) :=
  (project_amended 32 32 (.fin 0) (.fin 32) (.fin 0) (.fin 32) (100, 5) [(0, 0)] [(1, 1)]
    none (by with_unfolding_all decide)).2.1

/-! ## C4: the auto-computed y range -/

theorem FQ.ble_trans {a b c : FQ} (h1 : a.ble b = true) (h2 : b.ble c = true) :
    a.ble c = true := by
  cases a <;> cases b <;> cases c <;> simp_all [FQ.ble]
  exact le_trans h1 h2

theorem FQ.ble_refl (a : FQ) (h : a ≠ .nan) : a.ble a = true := by
  cases a <;> simp_all [FQ.ble]

theorem FQ.fmin_ble_right (a : FQ) (q : ℚ) : (a.fmin (.fin q)).ble (.fin q) = true := by
  cases a <;> simp [FQ.fmin, FQ.ble, min_le_right]

theorem FQ.ble_fmax_right (a : FQ) (q : ℚ) : (FQ.fin q).ble (a.fmax (.fin q)) = true := by
  cases a <;> simp [FQ.fmax, FQ.ble, le_max_right]

theorem FQ.fmin_ble_left (a : FQ) (q : ℚ) (h : a ≠ .nan) : (a.fmin (.fin q)).ble a = true := by
  cases a <;> simp_all [FQ.fmin, FQ.ble, min_le_left]

theorem FQ.ble_fmax_left (a : FQ) (q : ℚ) (h : a ≠ .nan) : a.ble (a.fmax (.fin q)) = true := by
  cases a <;> simp_all [FQ.fmax, FQ.ble, le_max_left]

theorem FQ.fmin_ne_nan (a : FQ) (q : ℚ) : a.fmin (.fin q) ≠ .nan := by
  cases a <;> simp [FQ.fmin]

theorem FQ.fmax_ne_nan (a : FQ) (q : ℚ) : a.fmax (.fin q) ≠ .nan := by
  cases a <;> simp [FQ.fmax]

theorem FQ.fmin_right_comm (a u v : FQ) : (a.fmin u).fmin v = (a.fmin v).fmin u := by
  cases a <;> cases u <;> cases v <;>
    simp [FQ.fmin, min_comm, min_left_comm, min_assoc]

theorem FQ.fmax_right_comm (a u v : FQ) : (a.fmax u).fmax v = (a.fmax v).fmax u := by
  cases a <;> cases u <;> cases v <;>
    simp [FQ.fmax, max_comm, max_left_comm, max_assoc]

theorem foldl_min_le_init (qs : List ℚ) (init : ℚ) : qs.foldl Min.min init ≤ init := by
  induction qs generalizing init with
  | nil => simp
  | cons a t ih => exact le_trans (ih _) (min_le_left _ _)

theorem listMinD0_le (ys : List ℚ) (q : ℚ) (h : q ∈ ys) : listMinD0 ys ≤ q := by
  cases ys with
  | nil => cases h
  | cons a t =>
    rcases List.mem_cons.mp h with rfl | hm
    · exact foldl_min_le_init t q
    · clear h
      induction t generalizing a with
      | nil => cases hm
      | cons b t' ih =>
        rcases List.mem_cons.mp hm with rfl | hm'
        · exact le_trans (foldl_min_le_init t' _) (min_le_right _ _)
        · exact ih _ hm'

theorem init_le_foldl_max' (qs : List ℚ) (init : ℚ) : init ≤ qs.foldl Max.max init := by
  induction qs generalizing init with
  | nil => simp
  | cons a t ih => exact le_trans (le_max_left _ _) (ih _)

theorem le_listMaxD0 (ys : List ℚ) (q : ℚ) (h : q ∈ ys) : q ≤ listMaxD0 ys := by
  cases ys with
  | nil => cases h
  | cons a t =>
    rcases List.mem_cons.mp h with rfl | hm
    · exact init_le_foldl_max' t q
    · clear h
      induction t generalizing a with
      | nil => cases hm
      | cons b t' ih =>
        rcases List.mem_cons.mp hm with rfl | hm'
        · exact le_trans (le_max_right _ _) (init_le_foldl_max' t' _)
        · exact ih _ hm'

theorem rescaleYs_eq_of_fields (ch' ch : Chart) (s : Shape)
    (hw : ch'.width = ch.width) (hx1 : ch'.xmin = ch.xmin) (hx2 : ch'.xmax = ch.xmax) :
    ch'.rescaleYs s = ch.rescaleYs s := by
  cases s <;> simp [Chart.rescaleYs, Chart.xScale, hw, hx1, hx2]

theorem lineplot_fields (ch : Chart) (s : Shape) :
    (ch.lineplot s).width = ch.width ∧ (ch.lineplot s).height = ch.height
    ∧ (ch.lineplot s).xmin = ch.xmin ∧ (ch.lineplot s).xmax = ch.xmax
    ∧ (ch.lineplot s).yRanging = ch.yRanging := by
  simp only [Chart.lineplot, Chart.rescale]
  split_ifs <;> simp

theorem lineplot_ymin_auto (ch : Chart) (s : Shape) (h : ch.yRanging = .autoRange) :
    (ch.lineplot s).ymin = ch.ymin.fmin (.fin (listMinD0 (ch.rescaleYs s))) := by
  unfold Chart.lineplot
  rw [if_pos (by simpa using h)]
  rfl

theorem lineplot_ymax_auto (ch : Chart) (s : Shape) (h : ch.yRanging = .autoRange) :
    (ch.lineplot s).ymax = ch.ymax.fmax (.fin (listMaxD0 (ch.rescaleYs s))) := by
  unfold Chart.lineplot
  rw [if_pos (by simpa using h)]
  rfl

theorem lineplot_ymin_fixed (ch : Chart) (s : Shape) (h : ch.yRanging = .fixedRange) :
    (ch.lineplot s).ymin = ch.ymin ∧ (ch.lineplot s).ymax = ch.ymax := by
  unfold Chart.lineplot
  rw [if_neg (by simp [h])]
  simp

theorem linecolorplot_ymin_auto (ch : Chart) (s : Shape) (c : PixelColor)
    (h : ch.yRanging = .autoRange) :
    (ch.linecolorplot s c).ymin = ch.ymin.fmin (.fin (listMinD0 (ch.rescaleYs s)))
    ∧ (ch.linecolorplot s c).ymax = ch.ymax.fmax (.fin (listMaxD0 (ch.rescaleYs s))) := by
  unfold Chart.linecolorplot
  rw [if_pos (by simpa using h)]
  exact ⟨rfl, rfl⟩

/-- Registering a list of shapes with `lineplot`, in order. -/
def registerAll (ch : Chart) (ss : List Shape) : Chart := ss.foldl Chart.lineplot ch

theorem foldl_comm_perm {α β : Type} (f : β → α → β)
    (hf : ∀ b x y, f (f b x) y = f (f b y) x)
    {l1 l2 : List α} (p : l1.Perm l2) : ∀ b, l1.foldl f b = l2.foldl f b := by
  induction p with
  | nil => intro b; rfl
  | cons x _ ih => intro b; simp only [List.foldl_cons]; exact ih _
  | swap x y l => intro b; simp only [List.foldl_cons]; rw [hf]
  | trans _ _ ih1 ih2 => intro b; rw [ih1 b, ih2 b]

theorem registerAll_ymin (ch : Chart) (ss : List Shape) (h : ch.yRanging = .autoRange) :
    (registerAll ch ss).ymin
      = ss.foldl (fun a s => a.fmin (.fin (listMinD0 (ch.rescaleYs s)))) ch.ymin
    ∧ (registerAll ch ss).ymax
      = ss.foldl (fun a s => a.fmax (.fin (listMaxD0 (ch.rescaleYs s)))) ch.ymax := by
  induction ss generalizing ch with
  | nil => exact ⟨rfl, rfl⟩
  | cons s t ih =>
    have hf := lineplot_fields ch s
    have h' : (ch.lineplot s).yRanging = .autoRange := by rw [hf.2.2.2.2, h]
    have ihs := ih (ch.lineplot s) h'
    have hre : ∀ s', (ch.lineplot s).rescaleYs s' = ch.rescaleYs s' := fun s' =>
      rescaleYs_eq_of_fields _ ch s' hf.1 hf.2.2.1 hf.2.2.2.1
    constructor
    · show (registerAll (ch.lineplot s) t).ymin = _
      rw [ihs.1, lineplot_ymin_auto ch s h]
      simp only [List.foldl_cons]
      congr 1
      funext a s'
      rw [hre s']
    · show (registerAll (ch.lineplot s) t).ymax = _
      rw [ihs.2, lineplot_ymax_auto ch s h]
      simp only [List.foldl_cons]
      congr 1
      funext a s'
      rw [hre s']

theorem registerAll_ble (ch : Chart) (ss : List Shape)
    (hymin : ch.ymin ≠ .nan) (hymax : ch.ymax ≠ .nan) :
    ((registerAll ch ss).ymin).ble ch.ymin = true
    ∧ (ch.ymax).ble ((registerAll ch ss).ymax) = true := by
  induction ss generalizing ch with
  | nil => exact ⟨FQ.ble_refl _ hymin, FQ.ble_refl _ hymax⟩
  | cons s t ih =>
    have hstep : ((ch.lineplot s).ymin).ble ch.ymin = true
        ∧ (ch.ymax).ble ((ch.lineplot s).ymax) = true
        ∧ (ch.lineplot s).ymin ≠ .nan ∧ (ch.lineplot s).ymax ≠ .nan := by
      cases hr : ch.yRanging with
      | autoRange =>
        rw [lineplot_ymin_auto ch s hr, lineplot_ymax_auto ch s hr]
        exact ⟨FQ.fmin_ble_left _ _ hymin, FQ.ble_fmax_left _ _ hymax,
          FQ.fmin_ne_nan _ _, FQ.fmax_ne_nan _ _⟩
      | fixedRange =>
        rw [(lineplot_ymin_fixed ch s hr).1, (lineplot_ymin_fixed ch s hr).2]
        exact ⟨FQ.ble_refl _ hymin, FQ.ble_refl _ hymax, hymin, hymax⟩
    have iht := ih (ch.lineplot s) hstep.2.2.1 hstep.2.2.2
    exact ⟨FQ.ble_trans iht.1 hstep.1, FQ.ble_trans hstep.2.1 iht.2⟩

/-- C4 counterexample: on an auto-ranged chart with x-domain `[0, 10]`,
registering `Points [(100, 5)]` — a finite sample — leaves the stored range
at `[0, 0]`, which does not contain the sample's y value 5: the rescale
only considers samples with x inside the x-domain. -/
theorem rescale_superset_cex :
    (Chart.new 32 32 (.fin 0) (.fin 10)).map (fun ch =>
      ((ch.lineplot (Shape.points [(100, 5)])).ymin,
       (ch.lineplot (Shape.points [(100, 5)])).ymax))
      = some (.fin 0, .fin 0)
    ∧ ((FQ.fin 0).ble (.fin 5) && (FQ.fin 5).ble (.fin 0)) = false := by
  constructor
  · with_unfolding_all decide
  · with_unfolding_all decide

/-- C4 (amended): in Auto-range mode, after registering a shape the stored
`[ymin, ymax]` covers every y value the rescale considers — for a discrete
shape the samples with x inside `[xmin, xmax]`, finite samples outside the
x-domain being ignored — registering any subsequent shapes never narrows
the range, `linecolorplot` widens exactly as `lineplot`, and the final
range is independent of the order of registration. -/
theorem rescale_amended (ch : Chart) (s : Shape) (c : PixelColor)
    (hauto : ch.yRanging = .autoRange)
    (hymin : ch.ymin ≠ .nan) (hymax : ch.ymax ≠ .nan) :
    (∀ q ∈ ch.rescaleYs s,
        ((ch.lineplot s).ymin).ble (.fin q) = true
        ∧ (FQ.fin q).ble ((ch.lineplot s).ymax) = true)
    ∧ (∀ ss : List Shape,
        ((registerAll ch ss).ymin).ble ch.ymin = true
        ∧ (ch.ymax).ble ((registerAll ch ss).ymax) = true)
    ∧ ((ch.linecolorplot s c).ymin = (ch.lineplot s).ymin
        ∧ (ch.linecolorplot s c).ymax = (ch.lineplot s).ymax)
    ∧ (∀ ss1 ss2 : List Shape, ss1.Perm ss2 →
        (registerAll ch ss1).ymin = (registerAll ch ss2).ymin
        ∧ (registerAll ch ss1).ymax = (registerAll ch ss2).ymax) := by
  refine ⟨?_, ?_, ?_, ?_⟩
  · intro q hq
    constructor
    · rw [lineplot_ymin_auto ch s hauto]
      exact FQ.ble_trans (FQ.fmin_ble_right _ _)
        (by simpa [FQ.ble] using listMinD0_le _ q hq)
    · rw [lineplot_ymax_auto ch s hauto]
      exact FQ.ble_trans (by simpa [FQ.ble] using le_listMaxD0 _ q hq)
        (FQ.ble_fmax_right _ _)
  · intro ss
    exact registerAll_ble ch ss hymin hymax
  · rw [lineplot_ymin_auto ch s hauto, lineplot_ymax_auto ch s hauto,
      (linecolorplot_ymin_auto ch s c hauto).1, (linecolorplot_ymin_auto ch s c hauto).2]
    exact ⟨rfl, rfl⟩
  · intro ss1 ss2 hp
    rw [(registerAll_ymin ch ss1 hauto).1, (registerAll_ymin ch ss2 hauto).1,
      (registerAll_ymin ch ss1 hauto).2, (registerAll_ymin ch ss2 hauto).2]
    exact ⟨foldl_comm_perm (fun a s => a.fmin (.fin (listMinD0 (ch.rescaleYs s))))
        (fun b x y => FQ.fmin_right_comm b _ _) hp _,
      foldl_comm_perm (fun a s => a.fmax (.fin (listMaxD0 (ch.rescaleYs s))))
        (fun b x y => FQ.fmax_right_comm b _ _) hp _⟩

/-- Witness for C4 (amended): on a fresh auto-ranged chart the in-domain
sample `(2, 7)` is covered by the widened range. -/
theorem rescale_amended_witness :
    (((⟨32, 32, .fin 0, .fin 10, .pinf, .ninf, .autoRange, [],
        Canvas.new 32 32⟩ : Chart).lineplot (Shape.points [(2, 7)])).ymin).ble (.fin 7)
      = true := by
  have h := rescale_amended
    ⟨32, 32, .fin 0, .fin 10, .pinf, .ninf, .autoRange, [], Canvas.new 32 32⟩
    (Shape.points [(2, 7)]) .white rfl (by decide) (by decide)
  exact (h.1 7 (by with_unfolding_all decide)).1

/-! ## C8: the render pass is idempotent on the cell map -/

/-- The cell a render-pass dot operation addresses. -/
def POp.cellP : POp → ℕ × ℕ
  | .set p => cellKey p.1 p.2
  | .setColored p _ => cellKey p.1 p.2

/-- The dot bit a render-pass dot operation ORs in. -/
def POp.bit : POp → ℕ
  | .set p => dotBit p.1 p.2
  | .setColored p _ => dotBit p.1 p.2

/-- The cell-value transformation of a render-pass dot operation. -/
def POp.cellFun : POp → Cell → Cell
  | .set p => fun a => ⟨a.mask ||| dotBit p.1 p.2, ' ', false, .white⟩
  | .setColored p c => fun a => ⟨a.mask ||| dotBit p.1 p.2, ' ', true, c⟩

/-- The cell value written by an operation, given the new mask. -/
def POp.mkCell : POp → ℕ → Cell
  | .set _, m => ⟨m, ' ', false, .white⟩
  | .setColored _ c, m => ⟨m, ' ', true, c⟩

theorem POp.apply_chars (o : POp) (cv : Canvas) :
    (o.apply cv).chars = entryMod o.cellP o.cellFun cv.chars := by
  cases o <;> rfl

theorem POp.cellFun_eq (o : POp) (a : Cell) :
    o.cellFun a = o.mkCell (a.mask ||| o.bit) := by
  cases o <;> rfl

theorem POp.mkCell_mask (o : POp) (m : ℕ) : (o.mkCell m).mask = m := by
  cases o <;> rfl

/-- The action of a render-pass operation list on the value of one cell. -/
def applyCellK : List POp → (ℕ × ℕ) → Option Cell → Option Cell
  | [], _, oc => oc
  | o :: L, k, oc =>
    applyCellK L k (if o.cellP = k then some (o.cellFun (oc.getD defaultCell)) else oc)

/-- The OR of the dot bits of a list of operations. -/
def bitsOf : List POp → ℕ
  | [] => 0
  | o :: L => o.bit ||| bitsOf L

theorem lookup_applyOps (L : List POp) (cv : Canvas) (k : ℕ × ℕ) :
    lookupCell (applyOps L cv).chars k = applyCellK L k (lookupCell cv.chars k) := by
  induction L generalizing cv with
  | nil => rfl
  | cons o L ih =>
    show lookupCell (applyOps L (o.apply cv)).chars k = _
    rw [ih]
    show _ = applyCellK L k (if o.cellP = k then _ else _)
    congr 1
    by_cases hk : o.cellP = k
    · rw [if_pos hk, POp.apply_chars, hk, lookupCell_entryMod_self]
    · rw [if_neg hk, POp.apply_chars,
        lookupCell_entryMod_ne _ _ _ _ (fun hh => hk hh.symm)]

theorem applyCellK_nil (L : List POp) (k : ℕ × ℕ) (oc : Option Cell)
    (h : L.filter (fun o => o.cellP == k) = []) : applyCellK L k oc = oc := by
  induction L generalizing oc with
  | nil => rfl
  | cons o L ih =>
    rw [List.filter_cons] at h
    by_cases hk : o.cellP = k
    · simp [hk] at h
    · rw [if_neg (by simpa using hk)] at h
      show applyCellK L k (if o.cellP = k then _ else oc) = oc
      rw [if_neg hk]
      exact ih oc h

theorem applyCellK_some (L : List POp) (k : ℕ × ℕ) (oc : Option Cell) (F : List POp)
    (hF : L.filter (fun o => o.cellP == k) = F) (hne : F ≠ []) :
    applyCellK L k oc
      = some ((F.getLast hne).mkCell ((oc.getD defaultCell).mask ||| bitsOf F)) := by
  induction L generalizing oc F with
  | nil =>
    rw [List.filter_nil] at hF
    exact absurd hF.symm hne
  | cons o L ih =>
    by_cases hk : o.cellP = k
    · have hcons : F = o :: L.filter (fun o => o.cellP == k) := by
        rw [← hF, List.filter_cons, if_pos (by simpa using hk)]
      subst hcons
      show applyCellK L k (if o.cellP = k then some (o.cellFun (oc.getD defaultCell)) else oc) = _
      rw [if_pos hk]
      by_cases hF2 : L.filter (fun o => o.cellP == k) = []
      · rw [applyCellK_nil L k _ hF2]
        revert hne
        rw [hF2]
        intro hne
        simp only [Option.getD_some, List.getLast_singleton, bitsOf, Nat.or_zero]
        rw [POp.cellFun_eq]
      · have ihh := ih (some (o.cellFun (oc.getD defaultCell))) _ rfl hF2
        rw [ihh, POp.cellFun_eq]
        congr 1
        have hlast : (o :: L.filter (fun o => o.cellP == k)).getLast hne
            = (L.filter (fun o => o.cellP == k)).getLast hF2 := List.getLast_cons hF2
        rw [hlast]
        congr 1
        simp only [Option.getD_some, POp.mkCell_mask]
        exact Nat.or_assoc _ _ _
    · have hrest : L.filter (fun o => o.cellP == k) = F := by
        rw [← hF, List.filter_cons, if_neg (by simpa using hk)]
      show applyCellK L k (if o.cellP = k then _ else oc) = _
      rw [if_neg hk]
      exact ih oc F hrest hne

theorem applyCellK_idem (L : List POp) (k : ℕ × ℕ) (oc : Option Cell) :
    applyCellK L k (applyCellK L k oc) = applyCellK L k oc := by
  by_cases hF : L.filter (fun o => o.cellP == k) = []
  · rw [applyCellK_nil _ _ _ hF, applyCellK_nil _ _ _ hF]
  · rw [applyCellK_some L k oc _ rfl hF]
    rw [applyCellK_some L k _ _ rfl hF]
    congr 2
    simp only [Option.getD_some, POp.mkCell_mask]
    rw [Nat.or_assoc, Nat.or_self]

theorem figuresOps_figures (ch : Chart) : ch.figures.figuresOps = ch.figuresOps := rfl

/-- C8: with the registered shapes and bounds unchanged between calls,
running the rasterization pass `figures()` twice leaves the canvas's cell
map in exactly the same state (per-key lookup) as running it once. -/
theorem figures_idempotent (ch : Chart) (k : ℕ × ℕ) :
    lookupCell ch.figures.figures.canvas.chars k
      = lookupCell ch.figures.canvas.chars k := by
  show lookupCell (applyOps ch.figures.figuresOps ch.figures.canvas).chars k = _
  rw [figuresOps_figures]
  show lookupCell (applyOps ch.figuresOps (applyOps ch.figuresOps ch.canvas)).chars k
    = lookupCell (applyOps ch.figuresOps ch.canvas).chars k
  rw [lookup_applyOps, lookup_applyOps]
  exact applyCellK_idem _ _ _

/-! ## C6: the text assembly of `Chart::to_string` -/

theorem digCh_ne_nl (n : ℕ) : digCh n ≠ '\n' := by
  unfold digCh
  split <;> decide

theorem natCharsAux_ne_nl (fuel : ℕ) : ∀ n, '\n' ∉ natCharsAux fuel n := by
  induction fuel with
  | zero => intro n; simp [natCharsAux]
  | succ fuel ih =>
    intro n
    by_cases h : n < 10
    · simp only [natCharsAux, if_pos h, List.mem_singleton]
      exact fun hh => digCh_ne_nl n hh.symm
    · simp only [natCharsAux, if_neg h, List.mem_append, List.mem_singleton]
      rintro (hh | hh)
      · exact ih _ hh
      · exact digCh_ne_nl _ hh.symm

theorem natChars_ne_nl (n : ℕ) : '\n' ∉ natChars n := natCharsAux_ne_nl _ n

theorem fmtQ1_ne_nl (q : ℚ) : '\n' ∉ fmtQ1 q := by
  unfold fmtQ1
  simp only [List.mem_append, List.mem_cons]
  rintro ((hh | hh) | hh | hh)
  · split at hh
    · simp at hh
    · simp at hh
  · exact natChars_ne_nl _ hh
  · cases hh
  · exact natChars_ne_nl _ hh

theorem fmt1_ne_nl (v : FQ) : '\n' ∉ fmt1 v := by
  cases v with
  | nan => decide
  | pinf => decide
  | ninf => decide
  | fin q => exact fmtQ1_ne_nl q

theorem padTo_ne_nl (s : List Char) (w : ℕ) (h : '\n' ∉ s) : '\n' ∉ padTo s w := by
  unfold padTo
  simp only [List.mem_append]
  rintro (hh | hh)
  · exact h hh
  · have := List.eq_of_mem_replicate hh
    cases this

theorem splitNl_ne_nil (t : List Char) : splitNl t ≠ [] := by
  cases t with
  | nil => simp [splitNl]
  | cons c rest =>
    by_cases h : c = '\n'
    · simp [splitNl, h]
    · simp only [splitNl, if_neg h]
      cases hsp : splitNl rest with
      | nil => simp
      | cons r rs => simp

theorem mem_splitNl_noNl (t : List Char) : ∀ r ∈ splitNl t, '\n' ∉ r := by
  induction t with
  | nil =>
    intro r hr
    simp only [splitNl, List.mem_singleton] at hr
    simp [hr]
  | cons c rest ih =>
    intro r hr
    by_cases h : c = '\n'
    · simp only [splitNl, if_pos h, List.mem_cons] at hr
      rcases hr with rfl | hr
      · simp
      · exact ih r hr
    · simp only [splitNl, if_neg h] at hr
      cases hsp : splitNl rest with
      | nil => exact absurd hsp (splitNl_ne_nil rest)
      | cons r' rs =>
        rw [hsp] at hr
        rcases List.mem_cons.mp hr with rfl | hr2
        · intro hmem
          rcases List.mem_cons.mp hmem with hc | hmem2
          · exact h hc.symm
          · exact ih r' (by rw [hsp]; exact List.mem_cons_self _ _) hmem2
        · exact ih r (by rw [hsp]; exact List.mem_cons_of_mem _ hr2)

theorem joinNl_cons_ne (r : List Char) (rs : List (List Char)) (h : rs ≠ []) :
    joinNl (r :: rs) = r ++ '\n' :: joinNl rs := by
  cases rs with
  | nil => exact absurd rfl h
  | cons r' rs' => rfl

theorem joinNl_splitNl (t : List Char) : joinNl (splitNl t) = t := by
  induction t with
  | nil => rfl
  | cons c rest ih =>
    by_cases h : c = '\n'
    · simp only [splitNl, if_pos h]
      rw [joinNl_cons_ne _ _ (splitNl_ne_nil rest), ih, h]
      rfl
    · simp only [splitNl, if_neg h]
      cases hsp : splitNl rest with
      | nil => exact absurd hsp (splitNl_ne_nil rest)
      | cons r' rs =>
        rw [hsp] at ih
        cases rs with
        | nil =>
          show joinNl [c :: r'] = c :: rest
          show c :: r' = c :: rest
          rw [show r' = rest from by simpa [joinNl] using ih]
        | cons r2 rs2 =>
          rw [joinNl_cons_ne _ _ (by simp)]
          rw [joinNl_cons_ne _ _ (by simp)] at ih
          show c :: (r' ++ '\n' :: joinNl (r2 :: rs2)) = c :: rest
          rw [ih]

theorem splitNl_append_nl (a b : List Char) (h : '\n' ∉ a) :
    splitNl (a ++ '\n' :: b) = a :: splitNl b := by
  induction a with
  | nil => simp [splitNl]
  | cons c a' ih =>
    have hc : c ≠ '\n' := fun hh => h (by simp [hh])
    have h' : '\n' ∉ a' := fun hh => h (by simp [hh])
    show splitNl (c :: (a' ++ '\n' :: b)) = _
    simp only [splitNl, if_neg hc]
    rw [ih h']

theorem firstNl_append (a b : List Char) (h : '\n' ∉ a) :
    firstNl (a ++ '\n' :: b) = some a.length := by
  induction a with
  | nil => simp [firstNl]
  | cons c a' ih =>
    have hc : c ≠ '\n' := fun hh => h (by simp [hh])
    have h' : '\n' ∉ a' := fun hh => h (by simp [hh])
    show firstNl (c :: (a' ++ '\n' :: b)) = _
    simp only [firstNl, if_neg hc, ih h', Option.map_some]
    rfl

theorem splitNl_join_mid (mid : List (List Char)) (rl t : List Char)
    (hmid : ∀ r ∈ mid, '\n' ∉ r) :
    splitNl (joinNl (mid ++ [rl]) ++ t) = mid ++ [] ++ splitNl (rl ++ t) := by
  induction mid with
  | nil => simp [joinNl]
  | cons r mid' ih =>
    rw [show (r :: mid') ++ [rl] = r :: (mid' ++ [rl]) from rfl,
      joinNl_cons_ne _ _ (by simp)]
    rw [show (r ++ '\n' :: joinNl (mid' ++ [rl])) ++ t
        = r ++ '\n' :: (joinNl (mid' ++ [rl]) ++ t) from by simp]
    rw [splitNl_append_nl _ _ (hmid r (List.mem_cons_self _ _))]
    rw [ih (fun r' hr' => hmid r' (List.mem_cons_of_mem _ hr'))]
    simp

theorem splitNl_assembled (r0 : List Char) (mid : List (List Char)) (rl y1 y2 xl : List Char)
    (hr0 : '\n' ∉ r0) (hmid : ∀ r ∈ mid, '\n' ∉ r) (hrl : '\n' ∉ rl)
    (hy1 : '\n' ∉ y1) (hy2 : '\n' ∉ y2) (hxl : '\n' ∉ xl) :
    splitNl (r0 ++ y1 ++ ('\n' :: joinNl (mid ++ [rl])) ++ y2 ++ '\n' :: (xl ++ ['\n']))
      = (r0 ++ y1) :: (mid ++ [rl ++ y2, xl, []]) := by
  have h1 : r0 ++ y1 ++ ('\n' :: joinNl (mid ++ [rl])) ++ y2 ++ '\n' :: (xl ++ ['\n'])
      = (r0 ++ y1) ++ '\n' :: (joinNl (mid ++ [rl]) ++ (y2 ++ '\n' :: (xl ++ ['\n']))) := by
    simp
  rw [h1, splitNl_append_nl _ _ (by
    simp only [List.mem_append]
    rintro (hh | hh)
    · exact hr0 hh
    · exact hy1 hh)]
  rw [splitNl_join_mid mid rl _ hmid]
  have h2 : rl ++ (y2 ++ '\n' :: (xl ++ ['\n'])) = (rl ++ y2) ++ '\n' :: (xl ++ ['\n']) := by
    simp
  rw [h2, splitNl_append_nl _ _ (by
    simp only [List.mem_append]
    rintro (hh | hh)
    · exact hrl hh
    · exact hy2 hh)]
  rw [show xl ++ ['\n'] = xl ++ '\n' :: ([] : List Char) from rfl,
    splitNl_append_nl _ _ hxl]
  simp [splitNl]

/-- C6 (amended): `to_string` runs `figures()` then `axis()` and takes
`canvas.frame()`; a frame with no newline is returned unmodified; otherwise
`" ymax"` (formatted) is inserted right after the first line, `" ymin"` is
appended to the last *frame* line — not placed on the added label line —
and one new final label line is appended holding the formatted `xmin`
left-aligned (space-padded on the right) to `width/2 - 3` characters
followed by the formatted `xmax`, plus a trailing newline. -/
theorem toString_structure (ch : Chart) :
    (firstNl ch.renderedFrame = none → ch.toStringText = ch.renderedFrame)
    ∧ (∀ r0 mid rl, splitNl ch.renderedFrame = r0 :: (mid ++ [rl]) →
        splitNl ch.toStringText
          = (r0 ++ ' ' :: fmt1 ch.ymax)
            :: (mid ++ [rl ++ ' ' :: fmt1 ch.ymin,
                padTo (fmt1 ch.xmin) (ch.width / 2 - 3) ++ fmt1 ch.xmax, []])) := by
  constructor
  · intro h
    simp [Chart.toStringText, h]
  · intro r0 mid rl hsplit
    have hne1 : mid ++ [rl] ≠ ([] : List (List Char)) := by simp
    have hr0 : '\n' ∉ r0 :=
      mem_splitNl_noNl _ _ (by rw [hsplit]; exact List.mem_cons_self _ _)
    have hmid : ∀ r ∈ mid, '\n' ∉ r := fun r hr =>
      mem_splitNl_noNl _ _
        (by rw [hsplit]; exact List.mem_cons_of_mem _ (List.mem_append_left _ hr))
    have hrl : '\n' ∉ rl :=
      mem_splitNl_noNl _ _
        (by rw [hsplit]
            exact List.mem_cons_of_mem _ (List.mem_append_right _ (List.mem_singleton_self _)))
    have hf : ch.renderedFrame = r0 ++ '\n' :: joinNl (mid ++ [rl]) := by
      have hj := joinNl_splitNl ch.renderedFrame
      rw [hsplit, joinNl_cons_ne _ _ hne1] at hj
      exact hj.symm
    have hfn : firstNl ch.renderedFrame = some r0.length := by
      rw [hf]
      exact firstNl_append _ _ hr0
    show splitNl (match firstNl ch.renderedFrame with
      | none => ch.renderedFrame
      | some idx =>
        ch.renderedFrame.take idx ++ (' ' :: fmt1 ch.ymax) ++ ch.renderedFrame.drop idx
          ++ (' ' :: fmt1 ch.ymin)
          ++ '\n' :: (padTo (fmt1 ch.xmin) (ch.width / 2 - 3) ++ fmt1 ch.xmax)
          ++ ['\n']) = _
    rw [hfn]
    show splitNl (ch.renderedFrame.take r0.length ++ (' ' :: fmt1 ch.ymax)
      ++ ch.renderedFrame.drop r0.length ++ (' ' :: fmt1 ch.ymin)
      ++ '\n' :: (padTo (fmt1 ch.xmin) (ch.width / 2 - 3) ++ fmt1 ch.xmax)
      ++ ['\n']) = _
    rw [hf, List.take_left, List.drop_left]
    have hy1 : '\n' ∉ ' ' :: fmt1 ch.ymax := by
      intro hh
      rcases List.mem_cons.mp hh with hc | hm
      · cases hc
      · exact fmt1_ne_nl _ hm
    have hy2 : '\n' ∉ ' ' :: fmt1 ch.ymin := by
      intro hh
      rcases List.mem_cons.mp hh with hc | hm
      · cases hc
      · exact fmt1_ne_nl _ hm
    have hxl : '\n' ∉ padTo (fmt1 ch.xmin) (ch.width / 2 - 3) ++ fmt1 ch.xmax := by
      intro hh
      rcases List.mem_append.mp hh with hm | hm
      · exact padTo_ne_nl _ _ (fmt1_ne_nl _) hm
      · exact fmt1_ne_nl _ hm
    have := splitNl_assembled r0 mid rl (' ' :: fmt1 ch.ymax) (' ' :: fmt1 ch.ymin)
      (padTo (fmt1 ch.xmin) (ch.width / 2 - 3) ++ fmt1 ch.xmax)
      hr0 hmid hrl hy1 hy2 hxl
    rw [← this]
    congr 1
    simp

/-- Witness for C6 (amended): the full rendered text of an empty fixed-range
32×32 chart with bounds `x ∈ [1, 2]`, `y ∈ [3, 4]`, line by line. -/
theorem toString_structure_witness :
    (Chart.newWithYRange 32 32 (.fin 1) (.fin 2) (.fin 3) (.fin 4)).map
        (fun ch => splitNl ch.toStringText)
      = some ((List.replicate 17 ' ' ++ ' ' :: fmt1 (.fin 4))
          :: (List.replicate 7 (List.replicate 17 ' ')
            ++ [List.replicate 17 ' ' ++ ' ' :: fmt1 (.fin 3),
                padTo (fmt1 (.fin 1)) 13 ++ fmt1 (.fin 2), []])) := by
  have h := (toString_structure
      ⟨32, 32, .fin 1, .fin 2, .fin 3, .fin 4, .fixedRange, [], Canvas.new 32 32⟩).2
    (List.replicate 17 ' ') (List.replicate 7 (List.replicate 17 ' '))
    (List.replicate 17 ' ') (by with_unfolding_all decide)
  show some (splitNl (⟨32, 32, .fin 1, .fin 2, .fin 3, .fin 4, .fixedRange, [],
    Canvas.new 32 32⟩ : Chart).toStringText) = _
  rw [h]
  rfl

/-- C6 counterexample: for the fixed-range chart with `xmin = 1`, `xmax = 2`,
`ymin = 3`, `ymax = 4`, the frame does contain a newline, yet no single line
of `to_string`'s output contains both the formatted `ymin` (`3.0`) and the
formatted `xmax` (`2.0`): the appended text puts `ymin` on the last canvas
row and `xmin`/`xmax` on a separate line, so no "final line containing the
formatted ymin followed by the formatted xmin and xmax" exists. -/
theorem toString_cex :
    (Chart.newWithYRange 32 32 (.fin 1) (.fin 2) (.fin 3) (.fin 4)).map (fun ch =>
      ((firstNl ch.renderedFrame).isSome,
       (splitNl ch.toStringText).all (fun r =>
         !(containsSub (fmt1 (.fin 3)) r && containsSub (fmt1 (.fin 2)) r))))
      = some (true, true) := by
  with_unfolding_all decide

end NuPlot
